import Mathlib

/-!
Shallow embedding of the decryption core of the kakaotalk-mcp repository
(`src/decrypt.py`) and verification of its specification.

Modelling conventions:
* Python `bytes` and `str` values are `List Nat` of byte values (the strings
  involved are ASCII: base64 output, decimal digits, registry GUID strings).
* The cryptographic primitives supplied by external libraries (the AES block
  function from pycryptodome, MD5 and SHA-512 from hashlib, base64) are
  abstract functions collected in a `Prims` structure; the CBC block mode,
  PKCS#7 padding, hex decoding and the length checks performed by
  `AES.new` / `cipher.encrypt` / `cipher.decrypt` are modelled concretely,
  following pycryptodome's documented behaviour.
* Fallible Python code (uncaught `ValueError` from the cipher layer or from
  `bytes.fromhex`) is modelled with `Except` / explicit outcome types.
-/

namespace KakaoMCP

set_option maxRecDepth 1000000

/-- Byte strings: Python `bytes` / ASCII `str`, as lists of byte values. -/
abbrev Bytes := List Nat

/-- Byte-wise XOR (the block combination step of CBC mode). -/
def xorBytes (a b : Bytes) : Bytes := List.zipWith Nat.xor a b

/-- Fuel-driven worker for `chunksOf`.  Structural recursion on the fuel
keeps the definition kernel-reducible; the fuel is always at least the list
length, so the fuel-exhausted branch is unreachable. -/
def chunksOfGo (n : Nat) : Nat → List α → List (List α)
  | _, [] => []
  | 0, l => [l]
  | fuel+1, x :: xs =>
    if n = 0 then [x :: xs]
    else (x :: xs).take n :: chunksOfGo n fuel ((x :: xs).drop n)

/-- Split a list into consecutive chunks of size `n` (the final chunk may be
shorter).  Used with `n = 16` for cipher blocks and `n = 4096` for the
decryptor's windows. -/
def chunksOf (n : Nat) (l : List α) : List (List α) :=
  chunksOfGo n l.length l

/-- Errors raised (as Python `ValueError`) by the modelled library layer. -/
inductive PyErr where
  | invalidKeyLength
  | invalidIvLength
  | blockMismatch
  | badHex
deriving DecidableEq, Repr

/-- Abstract cryptographic primitives supplied by pycryptodome / hashlib /
base64: the raw AES block permutation and its inverse, the two hash digests
and the base64 encoder. -/
structure Prims where
  aesEncBlock : Bytes → Bytes → Bytes
  aesDecBlock : Bytes → Bytes → Bytes
  md5 : Bytes → Bytes
  sha512 : Bytes → Bytes
  b64 : Bytes → Bytes

/-- The facts about the primitives the library guarantees and the proofs
use: the block functions are mutually inverse and length preserving, and an
MD5 digest is 16 bytes. -/
structure PrimsWf (p : Prims) : Prop where
  dec_enc : ∀ k b, p.aesDecBlock k (p.aesEncBlock k b) = b
  enc_len : ∀ k b, (p.aesEncBlock k b).length = b.length
  dec_len : ∀ k b, (p.aesDecBlock k b).length = b.length
  md5_len : ∀ b, (p.md5 b).length = 16

/-- Model of `AES.new(key, ...)` key validation: it accepts exactly the AES key sizes 16, 24 and 32
bytes and raises `ValueError` otherwise. -/
def aesKeyOk (key : Bytes) : Bool :=
  key.length = 16 || key.length = 24 || key.length = 32

/-- CBC encryption over a list of plaintext blocks: each block is XORed with
the previous ciphertext block (initially the IV) before the block cipher. -/
def cbcEncryptBlocks (p : Prims) (key : Bytes) : Bytes → List Bytes → List Bytes
  | _, [] => []
  | iv, b :: bs =>
    let c := p.aesEncBlock key (xorBytes iv b)
    c :: cbcEncryptBlocks p key c bs

/-- CBC decryption over a list of ciphertext blocks: inverse block cipher,
then XOR with the previous ciphertext block (initially the IV). -/
def cbcDecryptBlocks (p : Prims) (key : Bytes) : Bytes → List Bytes → List Bytes
  | _, [] => []
  | iv, c :: cs =>
    xorBytes iv (p.aesDecBlock key c) :: cbcDecryptBlocks p key c cs

/-- Model of `AES.new(key, AES.MODE_CBC, iv).encrypt(data)`: key and IV
lengths are validated by `AES.new`, the data length must be a multiple of
the 16-byte block size, and the blocks are chained. -/
def aesCbcEncrypt (p : Prims) (key iv data : Bytes) : Except PyErr Bytes :=
  if ¬ aesKeyOk key then .error .invalidKeyLength
  else if iv.length ≠ 16 then .error .invalidIvLength
  else if data.length % 16 ≠ 0 then .error .blockMismatch
  else .ok (cbcEncryptBlocks p key iv (chunksOf 16 data)).flatten

/-- Model of `AES.new(key, AES.MODE_CBC, iv).decrypt(data)`. -/
def aesCbcDecrypt (p : Prims) (key iv data : Bytes) : Except PyErr Bytes :=
  if ¬ aesKeyOk key then .error .invalidKeyLength
  else if iv.length ≠ 16 then .error .invalidIvLength
  else if data.length % 16 ≠ 0 then .error .blockMismatch
  else .ok (cbcDecryptBlocks p key iv (chunksOf 16 data)).flatten

/-- PKCS#7 padding to the 16-byte block size, the behaviour of
`Crypto.Util.Padding.pad(data, AES.block_size)`. -/
def pkcs7Pad (data : Bytes) : Bytes :=
  let n := 16 - data.length % 16
  data ++ List.replicate n n

/-- Fuel-driven worker for `decRepr`; the fuel is at least the number of
digits, so the fuel-exhausted branch is unreachable. -/
def decReprGo : Nat → Nat → Bytes
  | 0, n => [48 + n % 10]
  | fuel+1, n => if n < 10 then [48 + n] else decReprGo fuel (n / 10) ++ [48 + n % 10]

/-- Decimal representation of a natural number as ASCII digit bytes,
the behaviour of Python `str(user_id)` for the nonnegative integers used
by the search. -/
def decRepr (n : Nat) : Bytes := decReprGo n n

/-- Value of an ASCII hex digit, if it is one. -/
def hexDigitVal (c : Nat) : Option Nat :=
  if 48 ≤ c ∧ c ≤ 57 then some (c - 48)
  else if 97 ≤ c ∧ c ≤ 102 then some (c - 87)
  else if 65 ≤ c ∧ c ≤ 70 then some (c - 55)
  else none

/-- Model of `bytes.fromhex` on separator-free input: pairs of hex digits;
`none` models the `ValueError` raised on malformed input.  (The registry
candidates are GUIDs with braces and dashes stripped, so they contain no
spaces.) -/
def hexDecode : Bytes → Option Bytes
  | [] => some []
  | [_] => none
  | c1 :: c2 :: rest =>
    match hexDigitVal c1, hexDigitVal c2, hexDecode rest with
    | some h, some l, some bs => some ((16 * h + l) :: bs)
    | _, _, _ => none

/-! ### The functions of `src/decrypt.py` -/

/-- Source function `generate_pragma(uuid, model_name, serial_number, key)`:
AES-CBC-encrypt the padded string `"uuid|model|serial"` under `key` with a
zero IV, SHA-512 the ciphertext, base64-encode the digest.  124 is the byte
of the separator `|`. -/
def generate_pragma (p : Prims) (uuid model_name serial_number key : Bytes) :
    Except PyErr Bytes :=
  let iv : Bytes := List.replicate 16 0
  let pragma : Bytes := uuid ++ [124] ++ model_name ++ [124] ++ serial_number
  match aesCbcEncrypt p key iv (pkcs7Pad pragma) with
  | .error e => .error e
  | .ok encrypted_pragma => .ok (p.b64 (p.sha512 encrypted_pragma))

/-- The `while len(key) < 512: key += key` loop of `generate_key_and_iv`.
The source loop diverges on the empty string; that unreachable case (the
pragma is never empty) is folded into the identity so the embedding stays
total, and every theorem assumes a non-empty input. -/
def growKeyGo : Nat → Bytes → Bytes
  | 0, s => s
  | fuel+1, s =>
    if 512 ≤ s.length then s
    else if s = [] then []
    else growKeyGo fuel (s ++ s)

/-- The doubling loop with enough fuel: from any non-empty string, nine
doublings reach length 512, so 512 units of fuel are never exhausted. -/
def growKey (s : Bytes) : Bytes := growKeyGo 512 s

/-- Source function `generate_key_and_iv(pragma, user_id)`: concatenate, self-duplicate to
length ≥ 512, truncate to 512, then `key = MD5(that)` and
`iv = MD5(base64(key))`. -/
def generate_key_and_iv (p : Prims) (pragma user_id : Bytes) : Bytes × Bytes :=
  let key := (growKey (pragma ++ user_id)).take 512
  let key_hash := p.md5 key
  let iv := p.md5 (p.b64 key_hash)
  (key_hash, iv)

/-- Source function `decrypt_database(key, iv, enc_db)`: the `while i < len(enc_db)` loop,
decrypting successive 4096-byte windows each with a fresh
`AES.new(key, AES.MODE_CBC, iv)`. -/
def decryptDbGo (p : Prims) (key iv : Bytes) : Nat → Bytes → Except PyErr Bytes
  | _, [] => .ok []
  | 0, _ => .ok []
  | fuel+1, e :: rest =>
    match aesCbcDecrypt p key iv ((e :: rest).take 4096) with
    | .error err => .error err
    | .ok d =>
      match decryptDbGo p key iv fuel ((e :: rest).drop 4096) with
      | .error err => .error err
      | .ok ds => .ok (d ++ ds)

/-- The window loop with fuel at least the input length, so the
fuel-exhausted branch is unreachable. -/
def decrypt_database (p : Prims) (key iv : Bytes) (enc_db : Bytes) :
    Except PyErr Bytes :=
  decryptDbGo p key iv enc_db.length enc_db

/-- The 16-byte magic literal `b"SQLite format 3\x00"`. -/
def sqliteMagic : Bytes :=
  [83, 81, 76, 105, 116, 101, 32, 102, 111, 114, 109, 97, 116, 32, 51, 0]

/-- Source function `verify_sqlite_header(data)`: `data[:16] == b"SQLite format 3\x00"`. -/
def verify_sqlite_header (data : Bytes) : Bool :=
  data.take 16 = sqliteMagic

/-- One iteration of the `find_user_id` loop: derive (key, iv) for this
candidate identifier, decrypt only the first 4096-byte window, and test the
header.  An `Except.error` is a `ValueError` escaping the iteration. -/
def tryUser (p : Prims) (pragma enc_db : Bytes) (user_id : Nat) :
    Except PyErr Bool :=
  let ki := generate_key_and_iv p pragma (decRepr user_id)
  match decrypt_database p ki.1 ki.2 (enc_db.take 4096) with
  | .error e => .error e
  | .ok dec_db => .ok (verify_sqlite_header dec_db)

/-- Whether a candidate identifier validates: its iteration runs without an
exception and the decrypted first window passes the header check. -/
def validates (p : Prims) (pragma enc_db : Bytes) (user_id : Nat) : Bool :=
  match tryUser p pragma enc_db user_id with
  | .ok true => true
  | _ => false

/-- The `for user_id in range(1, max_attempts + 1)` loop of `find_user_id`,
over an explicit list of candidates.  The periodic progress print has no
behavioural effect and is not modelled. -/
def fuiLoop (p : Prims) (pragma enc_db : Bytes) : List Nat → Except PyErr (Option Bytes)
  | [] => .ok none
  | u :: us =>
    match tryUser p pragma enc_db u with
    | .error e => .error e
    | .ok true => .ok (some (decRepr u))
    | .ok false => fuiLoop p pragma enc_db us

/-- Source function `find_user_id(pragma, enc_db, max_attempts)`: brute force identifiers
`1 .. max_attempts` in order; `.ok none` is the `return None` path. -/
def find_user_id (p : Prims) (pragma enc_db : Bytes) (max_attempts : Nat) :
    Except PyErr (Option Bytes) :=
  fuiLoop p pragma enc_db (List.range' 1 max_attempts)

/-- Model of the synthetic container construction used by the spec's test
properties: the exact window-wise inverse of `decrypt_database`, encrypting
successive 4096-byte windows each under the same fixed IV. -/
def encryptDbGo (p : Prims) (key iv : Bytes) : Nat → Bytes → Except PyErr Bytes
  | _, [] => .ok []
  | 0, _ => .ok []
  | fuel+1, e :: rest =>
    match aesCbcEncrypt p key iv ((e :: rest).take 4096) with
    | .error err => .error err
    | .ok d =>
      match encryptDbGo p key iv fuel ((e :: rest).drop 4096) with
      | .error err => .error err
      | .ok ds => .ok (d ++ ds)

/-- The window-wise encryptor, with fuel as in `decrypt_database`. -/
def encrypt_database (p : Prims) (key iv : Bytes) (db : Bytes) :
    Except PyErr Bytes :=
  encryptDbGo p key iv db.length db

/-! ### The `KakaoDecryptor` class -/

/-- The device-info dictionary from the registry.  The class reads the three
fields with `self.device_info.get(field, "")`, so an absent field and an
empty string are indistinguishable downstream; both are the empty list. -/
structure DeviceInfo where
  uuid : Bytes
  model : Bytes
  serial : Bytes
deriving DecidableEq, Repr

/-- The `self._cached_credentials` dictionary. -/
structure Creds where
  uuid : Bytes
  model : Bytes
  serial : Bytes
  network_key : Bytes
  pragma : Bytes
  user_id : Bytes
deriving DecidableEq, Repr

/-- The mutable state of a `KakaoDecryptor` instance: the registry data
sourced once in `__init__` and the credentials cache (`None` initially). -/
structure DecState where
  device_info : Option DeviceInfo
  network_keys : List Bytes
  cached : Option Creds
deriving DecidableEq, Repr

/-- Outcome of `_find_working_credentials`.  `missingDeviceInfo` is the
`return None` after one of the two device-info diagnostics printed before
the candidate loop; `credentialsNotFound` is the bare `return None` after
the loop; `raised e` is an uncaught `ValueError` from `bytes.fromhex` or
the cipher layer. -/
inductive FindOutcome where
  | found (c : Creds)
  | missingDeviceInfo
  | credentialsNotFound
  | raised (e : PyErr)
deriving DecidableEq, Repr

/-- The `for net_key in self.network_keys` loop of
`_find_working_credentials`: hex-decode the candidate, skip it unless it is
16 bytes, build a pragma, and brute-force the user id with
`max_attempts=50000`. -/
def credsLoop (p : Prims) (di : DeviceInfo) (enc_db : Bytes) :
    List Bytes → Option Creds ⊕ PyErr
  | [] => .inl none
  | nk :: rest =>
    match hexDecode nk with
    | none => .inr .badHex
    | some key_bytes =>
      if key_bytes.length ≠ 16 then credsLoop p di enc_db rest
      else
        match generate_pragma p di.uuid di.model di.serial key_bytes with
        | .error e => .inr e
        | .ok pragma =>
          match find_user_id p pragma enc_db 50000 with
          | .error e => .inr e
          | .ok none => credsLoop p di enc_db rest
          | .ok (some user_id) =>
            .inl (some { uuid := di.uuid, model := di.model, serial := di.serial,
                         network_key := nk, pragma := pragma, user_id := user_id })

/-- Method `KakaoDecryptor._find_working_credentials(enc_db)`: return the cache if
set; fail before the loop when the device info is absent or any of the three
fields is empty; otherwise run the candidate loop and cache a success. -/
def find_working_credentials (p : Prims) (st : DecState) (enc_db : Bytes) :
    FindOutcome × DecState :=
  match st.cached with
  | some c => (.found c, st)
  | none =>
    match st.device_info with
    | none => (.missingDeviceInfo, st)
    | some di =>
      if di.uuid = [] ∨ di.model = [] ∨ di.serial = [] then
        (.missingDeviceInfo, st)
      else
        match credsLoop p di enc_db st.network_keys with
        | .inr e => (.raised e, st)
        | .inl none => (.credentialsNotFound, st)
        | .inl (some c) => (.found c, { st with cached := some c })

/-- Outcome of `decrypt_file`.  `noCredentials` and `decryptionFailed` are
the two `return None` paths (each after its own diagnostic print);
`raised e` is an uncaught `ValueError`. -/
inductive DecOutcome where
  | ok (db : Bytes)
  | noCredentials
  | decryptionFailed
  | raised (e : PyErr)
deriving DecidableEq, Repr

/-- Method `KakaoDecryptor.decrypt_file`, with the file's bytes passed in place of
the path (the read itself is I/O): find or reuse credentials, decrypt the
whole byte sequence, and accept only if the header validates. -/
def decrypt_file (p : Prims) (st : DecState) (enc_db : Bytes) :
    DecOutcome × DecState :=
  match find_working_credentials p st enc_db with
  | (.raised e, st') => (.raised e, st')
  | (.missingDeviceInfo, st') => (.noCredentials, st')
  | (.credentialsNotFound, st') => (.noCredentials, st')
  | (.found c, st') =>
    let ki := generate_key_and_iv p c.pragma c.user_id
    match decrypt_database p ki.1 ki.2 enc_db with
    | .error e => (.raised e, st')
    | .ok dec_db =>
      if verify_sqlite_header dec_db then (.ok dec_db, st')
      else (.decryptionFailed, st')

/-! ### Temp-file lifecycle and message extraction

The filesystem and the sqlite3 engine are external; the filesystem is
modelled as a trace of create/remove events on opaque path identifiers, and
the sqlite3 engine as an oracle describing what each query would return on
the decrypted container. -/

/-- A filesystem event on a path identifier. -/
inductive FsEvent where
  | created (path : Nat)
  | removed (path : Nat)
deriving DecidableEq, Repr

/-- Outcome of `decrypt_to_temp_file`. -/
inductive TmpOutcome where
  | path (tmp : Nat)
  | none
  | raised (e : PyErr)
deriving DecidableEq, Repr

/-- Method `KakaoDecryptor.decrypt_to_temp_file`: decrypt, and on success write
the plaintext to a fresh temp file (`tempfile.mkstemp`), returning its
path.  `tmp` is the fresh path the environment hands out; the write is
modelled as succeeding. -/
def decrypt_to_temp_file (p : Prims) (st : DecState) (enc_db : Bytes)
    (tmp : Nat) : TmpOutcome × DecState × List FsEvent :=
  match decrypt_file p st enc_db with
  | (.raised e, st') => (.raised e, st', [])
  | (.noCredentials, st') => (.none, st', [])
  | (.decryptionFailed, st') => (.none, st', [])
  | (.ok _, st') => (.path tmp, st', [.created tmp])

/-- A row of a modelled table: the assumed send-timestamp column and the
rest of the row, opaque. -/
structure Row where
  sendAt : Int
  payload : Bytes
deriving DecidableEq, Repr

/-- A table of the decrypted container as the sqlite3 oracle sees it:
its name, whether the query `SELECT * FROM t ORDER BY sendAt DESC LIMIT
1000` is well-formed on it (a broken schema, e.g. no `sendAt` column,
makes it raise), and its rows. -/
structure Table where
  name : Bytes
  schemaOk : Bool
  rows : List Row
deriving DecidableEq, Repr

/-- The sqlite3 oracle for one decrypted container: whether the
`sqlite_master` catalog query succeeds (it raises on a byte sequence that is
not really a database), and the tables. -/
structure DbModel where
  masterOk : Bool
  tables : List Table
deriving DecidableEq, Repr

/-- Insert a row into a list kept in descending `sendAt` order. -/
def insertDesc (r : Row) : List Row → List Row
  | [] => [r]
  | x :: xs => if x.sendAt ≤ r.sendAt then r :: x :: xs else x :: insertDesc r xs

/-- Sort rows most-recent-first by `sendAt`. -/
def sortDesc (l : List Row) : List Row := l.foldr insertDesc []

/-- The sqlite3 engine evaluating
`SELECT * FROM t ORDER BY sendAt DESC LIMIT 1000`: rows most-recent-first,
at most 1000 of them; `.error` models the exception on a broken schema. -/
def queryRecent (t : Table) : Except Unit (List Row) :=
  if t.schemaOk then .ok ((sortDesc t.rows).take 1000) else .error ()

/-- ASCII lower-casing of one byte, the behaviour of `str.lower` on the
ASCII table names involved. -/
def asciiLower (c : Nat) : Nat := if 65 ≤ c ∧ c ≤ 90 then c + 32 else c

/-- Python's substring test `needle in hay`. -/
def containsSub (needle : Bytes) : Bytes → Bool
  | [] => needle.isEmpty
  | h :: t => needle.isPrefixOf (h :: t) || containsSub needle t

/-- The bytes of `"log"`. -/
def logWord : Bytes := [108, 111, 103]

/-- The bytes of `"message"`. -/
def messageWord : Bytes := [109, 101, 115, 115, 97, 103, 101]

/-- The table filter of `get_messages_from_edb`:
`'log' in table_name.lower() or 'message' in table_name.lower()`. -/
def tableMatches (name : Bytes) : Bool :=
  containsSub logWord (name.map asciiLower) ||
    containsSub messageWord (name.map asciiLower)

/-- The per-table loop of `get_messages_from_edb`: query each matching
table, appending its rows to the accumulated messages; a per-table
exception is caught, logged and skipped. -/
def extractRows : List Table → List Row
  | [] => []
  | t :: ts =>
    if tableMatches t.name then
      match queryRecent t with
      | .ok rs => rs ++ extractRows ts
      | .error _ => extractRows ts
    else extractRows ts

/-- Outcome of `get_messages_from_edb`: a message list, or an uncaught
exception (from the cipher layer or from sqlite3 on a container that is not
a database). -/
inductive MsgOutcome where
  | msgs (l : List Row)
  | raisedPy (e : PyErr)
  | raisedDb
deriving DecidableEq, Repr

/-- Method `KakaoDecryptor.get_messages_from_edb`: decrypt to a temp file; if that
yields no path, return `[]`; otherwise open the container and extract
messages inside `try ... finally os.remove(temp_path)`, so the temp file is
removed both on normal return and on an escaping exception. -/
def get_messages_from_edb (p : Prims) (st : DecState) (enc_db : Bytes)
    (tmp : Nat) (db : DbModel) : MsgOutcome × DecState × List FsEvent :=
  match decrypt_to_temp_file p st enc_db tmp with
  | (.raised e, st', evs) => (.raisedPy e, st', evs)
  | (.none, st', evs) => (.msgs [], st', evs)
  | (.path t, st', evs) =>
    if db.masterOk then
      (.msgs (extractRows db.tables), st', evs ++ [.removed t])
    else
      (.raisedDb, st', evs ++ [.removed t])

/-- Replay a list of filesystem events on a set of existing paths. -/
def applyEvents (fs : List Nat) : List FsEvent → List Nat
  | [] => fs
  | .created t :: evs => applyEvents (fs ++ [t]) evs
  | .removed t :: evs => applyEvents (fs.filter (· ≠ t)) evs

/-! ### A concrete instantiation of the primitives

The claims are settled for every well-formed `Prims`; the witnesses
evaluate them on this small concrete instance (a keyed XOR in place of the
AES block function, a cheap mixing digest in place of MD5). -/

/-- A cheap mixing fold used by the concrete digest. -/
def dMix (l : Bytes) : Nat := l.foldl (fun a b => (a * 31 + b) % 65521) 7

/-- A concrete 16-byte digest standing in for MD5. -/
def dummyMd5 (l : Bytes) : Bytes :=
  (List.range 16).map (fun i => (dMix l + 37 * i) % 256)

/-- The single XOR byte the concrete block cipher derives from a key. -/
def dummyKeyByte (key : Bytes) : Nat :=
  key.foldl (fun a b => (a + b) % 256) 0

/-- A concrete, self-inverse instantiation of the primitives. -/
def dummyPrims : Prims where
  aesEncBlock := fun k b => b.map (fun x => x ^^^ dummyKeyByte k)
  aesDecBlock := fun k b => b.map (fun x => x ^^^ dummyKeyByte k)
  md5 := dummyMd5
  sha512 := fun l => l
  b64 := fun l => l

theorem dummyPrims_wf : PrimsWf dummyPrims := by
  refine ⟨fun k b => ?_, fun k b => by simp [dummyPrims], fun k b => by simp [dummyPrims],
    fun b => by simp [dummyPrims, dummyMd5]⟩
  simp only [dummyPrims, List.map_map]
  have : ∀ l : Bytes, l.map (fun x => (x ^^^ dummyKeyByte k) ^^^ dummyKeyByte k) = l := by
    intro l
    induction l with
    | nil => rfl
    | cons x xs ih => simp [Nat.xor_assoc, Nat.xor_self, ih]
  exact this b

/-! ### Chunking lemmas -/

theorem chunksOfGo_fuel (n : Nat) :
    ∀ f1 f2 (l : List α), l.length ≤ f1 → l.length ≤ f2 →
      chunksOfGo n f1 l = chunksOfGo n f2 l := by
  intro f1
  induction f1 with
  | zero =>
    intro f2 l h1 _
    have : l = [] := List.eq_nil_of_length_eq_zero (Nat.le_zero.mp h1)
    subst this
    cases f2 <;> rfl
  | succ f ih =>
    intro f2 l h1 h2
    cases l with
    | nil => cases f2 <;> rfl
    | cons x xs =>
      cases f2 with
      | zero => simp at h2
      | succ g =>
        simp only [chunksOfGo]
        by_cases hn : n = 0
        · simp [hn]
        · simp only [hn, if_false]
          have hlen : ((x :: xs).drop n).length ≤ f := by
            simp only [List.length_drop, List.length_cons]
            simp only [List.length_cons] at h1
            omega
          have hlen2 : ((x :: xs).drop n).length ≤ g := by
            simp only [List.length_drop, List.length_cons]
            simp only [List.length_cons] at h2
            omega
          rw [ih g (List.drop n (x :: xs)) hlen hlen2]

theorem chunksOf_nil (n : Nat) : chunksOf n ([] : List α) = [] := rfl

theorem chunksOf_cons (n : Nat) (hn : 0 < n) (l : List α) (hl : l ≠ []) :
    chunksOf n l = l.take n :: chunksOf n (l.drop n) := by
  cases l with
  | nil => exact absurd rfl hl
  | cons x xs =>
    show chunksOfGo n (xs.length + 1) (x :: xs) = _
    simp only [chunksOfGo, Nat.pos_iff_ne_zero.mp hn, if_false]
    congr 1
    exact chunksOfGo_fuel n xs.length ((x :: xs).drop n).length _
      (by simp only [List.length_drop, List.length_cons]; omega) (le_refl _)

theorem chunksOf_flatten (n : Nat) (hn : 0 < n) (l : List α) :
    (chunksOf n l).flatten = l := by
  suffices h : ∀ len (l : List α), l.length = len → (chunksOf n l).flatten = l from
    h l.length l rfl
  intro len
  induction len using Nat.strong_induction_on with
  | _ len ih =>
    intro l hlen
    cases l with
    | nil => rfl
    | cons x xs =>
      rw [chunksOf_cons n hn _ (by simp)]
      simp only [List.flatten_cons]
      rw [ih ((x :: xs).drop n).length _ _ rfl, List.take_append_drop]
      subst hlen
      simp only [List.length_drop, List.length_cons]
      omega

theorem chunksOf_mem_length (n : Nat) (hn : 0 < n) (l : List α) :
    ∀ w ∈ chunksOf n l, w.length ≤ n ∧ (l.length % n = 0 → w.length = n) := by
  suffices h : ∀ len (l : List α), l.length = len →
      ∀ w ∈ chunksOf n l, w.length ≤ n ∧ (l.length % n = 0 → w.length = n) from
    h l.length l rfl
  intro len
  induction len using Nat.strong_induction_on with
  | _ len ih =>
    intro l hlen
    cases l with
    | nil => intro w hw; simp [chunksOf_nil] at hw
    | cons x xs =>
      rw [chunksOf_cons n hn _ (by simp)]
      intro w hw
      rcases List.mem_cons.mp hw with h | h
      · subst h
        constructor
        · simp only [List.length_take]
          omega
        · intro hmod
          simp only [List.length_take]
          rcases Nat.lt_or_ge (x :: xs).length n with hlt | hge
          · exfalso
            have := Nat.mod_eq_of_lt hlt
            have hpos : 0 < (x :: xs).length := by simp
            omega
          · omega
      · have hdl : ((x :: xs).drop n).length < len := by
          subst hlen
          simp only [List.length_drop, List.length_cons]
          omega
        refine ⟨(ih _ hdl _ rfl w h).1, fun hmod => (ih _ hdl _ rfl w h).2 ?_⟩
        simp only [List.length_drop]
        rcases Nat.lt_or_ge (x :: xs).length n with hlt | hge
        · have hz : (x :: xs).length - n = 0 := by
            simp only [List.length_cons] at hlt ⊢
            omega
          simp only [List.length_cons] at hz
          simp [hz]
        · calc ((x :: xs).length - n) % n
              = ((x :: xs).length - n + n) % n := (Nat.add_mod_right _ n).symm
            _ = (x :: xs).length % n := by rw [Nat.sub_add_cancel hge]
            _ = 0 := hmod

/-- If every block has length `k`, the flattened list has length
`k * count`. -/
theorem flatten_length_const {k : Nat} :
    ∀ ls : List (List α), (∀ w ∈ ls, w.length = k) →
      ls.flatten.length = k * ls.length := by
  intro ls
  induction ls with
  | nil => simp
  | cons w ws ih =>
    intro h
    simp only [List.flatten_cons, List.length_append, List.length_cons]
    rw [h w (by simp), ih (fun v hv => h v (by simp [hv]))]
    ring

/-- Chunking the flattening of a list of exact-`n` blocks recovers the
blocks. -/
theorem chunksOf_flatten_blocks (n : Nat) (hn : 0 < n) :
    ∀ ls : List (List α), (∀ w ∈ ls, w.length = n) →
      chunksOf n ls.flatten = ls := by
  intro ls
  induction ls with
  | nil => simp [chunksOf_nil]
  | cons w ws ih =>
    intro h
    have hw : w.length = n := h w (by simp)
    have hwne : w ≠ [] := by
      intro hnil
      rw [hnil] at hw
      simp at hw
      omega
    have hfl : (w :: ws).flatten = w ++ ws.flatten := rfl
    rw [hfl, chunksOf_cons n hn _ (by
      intro hnil
      have := congrArg List.length hnil
      simp [List.length_append, hw] at this
      omega)]
    rw [← hw, List.take_left, List.drop_left, hw]
    rw [ih (fun v hv => h v (by simp [hv]))]

/-- A misaligned total length yields a misaligned chunk and conversely,
when the chunk size is a multiple of the block size. -/
theorem chunksOf_misaligned (l : List α) :
    (∃ w ∈ chunksOf 4096 l, w.length % 16 ≠ 0) ↔ l.length % 16 ≠ 0 := by
  suffices h : ∀ len (l : List α), l.length = len →
      ((∃ w ∈ chunksOf 4096 l, w.length % 16 ≠ 0) ↔ l.length % 16 ≠ 0) from
    h l.length l rfl
  intro len
  induction len using Nat.strong_induction_on with
  | _ len ih =>
    intro l hlen
    cases l with
    | nil => simp [chunksOf_nil]
    | cons x xs =>
      rw [chunksOf_cons 4096 (by omega) _ (by simp)]
      have htake : ((x :: xs).take 4096).length = min 4096 (x :: xs).length := by
        rw [List.length_take]
      have hdrop : ((x :: xs).drop 4096).length = (x :: xs).length - 4096 := by
        rw [List.length_drop]
      rcases Nat.lt_or_ge (x :: xs).length 4096 with hlt | hge
      · have hd0 : (x :: xs).drop 4096 = [] :=
          List.eq_nil_of_length_eq_zero (by omega)
        rw [hd0]
        simp only [chunksOf_nil, List.mem_singleton, List.mem_cons]
        constructor
        · rintro ⟨w, hw, hmod⟩
          rcases hw with rfl | hw
          · rwa [htake, Nat.min_eq_right (by omega)] at hmod
          · simp at hw
        · intro hmod
          exact ⟨(x :: xs).take 4096, by simp, by
            rwa [htake, Nat.min_eq_right (by omega)]⟩
      · have hdl : ((x :: xs).drop 4096).length < len := by
          subst hlen
          simp only [List.length_drop, List.length_cons]
          omega
        have ihd := ih _ hdl ((x :: xs).drop 4096) rfl
        constructor
        · rintro ⟨w, hw, hmod⟩
          rcases List.mem_cons.mp hw with rfl | hw
          · rw [htake, Nat.min_eq_left hge] at hmod
            omega
          · have := ihd.mp ⟨w, hw, hmod⟩
            rw [hdrop] at this
            omega
        · intro hmod
          have : ((x :: xs).drop 4096).length % 16 ≠ 0 := by
            rw [hdrop]
            omega
          obtain ⟨w, hw, hwm⟩ := ihd.mpr this
          exact ⟨w, List.mem_cons.mpr (Or.inr hw), hwm⟩

/-! ### CBC-mode lemmas -/

theorem xorBytes_length (a b : Bytes) :
    (xorBytes a b).length = min a.length b.length := by
  simp [xorBytes, List.length_zipWith]

theorem xorBytes_cancel : ∀ (iv b : Bytes), b.length ≤ iv.length →
    xorBytes iv (xorBytes iv b) = b := by
  intro iv
  induction iv with
  | nil =>
    intro b hb
    have : b = [] := List.eq_nil_of_length_eq_zero (Nat.le_zero.mp hb)
    simp [this, xorBytes]
  | cons x xs ih =>
    intro b hb
    cases b with
    | nil => simp [xorBytes]
    | cons y ys =>
      simp only [xorBytes, List.zipWith_cons_cons] at *
      have h1 : Nat.xor x (Nat.xor x y) = y := by
        show x ^^^ (x ^^^ y) = y
        rw [← Nat.xor_assoc, Nat.xor_self, Nat.zero_xor]
      rw [h1, ih ys (by simpa using hb)]

theorem cbcDecryptBlocks_length (p : Prims) (hw : PrimsWf p) (key : Bytes) :
    ∀ (cs : List Bytes) (iv : Bytes), iv.length = 16 → (∀ c ∈ cs, c.length = 16) →
      (∀ b ∈ cbcDecryptBlocks p key iv cs, b.length = 16) := by
  intro cs
  induction cs with
  | nil => intro iv _ _ b hb; simp [cbcDecryptBlocks] at hb
  | cons c cs ih =>
    intro iv hiv hcs b hb
    simp only [cbcDecryptBlocks, List.mem_cons] at hb
    rcases hb with rfl | hb
    · rw [xorBytes_length, hw.dec_len, hcs c (by simp), hiv]
      simp
    · exact ih c (hcs c (by simp)) (fun v hv => hcs v (by simp [hv])) b hb

theorem cbcEncryptBlocks_length (p : Prims) (hw : PrimsWf p) (key : Bytes) :
    ∀ (bs : List Bytes) (iv : Bytes), iv.length = 16 → (∀ b ∈ bs, b.length = 16) →
      (∀ c ∈ cbcEncryptBlocks p key iv bs, c.length = 16) := by
  intro bs
  induction bs with
  | nil => intro iv _ _ c hc; simp [cbcEncryptBlocks] at hc
  | cons b bs ih =>
    intro iv hiv hbs c hc
    have hfirst : (p.aesEncBlock key (xorBytes iv b)).length = 16 := by
      rw [hw.enc_len, xorBytes_length, hiv, hbs b (by simp)]
      simp
    simp only [cbcEncryptBlocks, List.mem_cons] at hc
    rcases hc with rfl | hc
    · exact hfirst
    · exact ih _ hfirst (fun v hv => hbs v (by simp [hv])) c hc

theorem cbcEncryptBlocks_count (p : Prims) (key : Bytes) :
    ∀ (bs : List Bytes) (iv : Bytes),
      (cbcEncryptBlocks p key iv bs).length = bs.length := by
  intro bs
  induction bs with
  | nil => intro iv; rfl
  | cons b bs ih => intro iv; simp [cbcEncryptBlocks, ih]

theorem cbcDecryptBlocks_count (p : Prims) (key : Bytes) :
    ∀ (cs : List Bytes) (iv : Bytes),
      (cbcDecryptBlocks p key iv cs).length = cs.length := by
  intro cs
  induction cs with
  | nil => intro iv; rfl
  | cons c cs ih => intro iv; simp [cbcDecryptBlocks, ih]

/-- Decrypting a CBC encryption block-wise recovers the plaintext blocks. -/
theorem cbc_roundtrip (p : Prims) (hw : PrimsWf p) (key : Bytes) :
    ∀ (bs : List Bytes) (iv : Bytes), iv.length = 16 → (∀ b ∈ bs, b.length = 16) →
      cbcDecryptBlocks p key iv (cbcEncryptBlocks p key iv bs) = bs := by
  intro bs
  induction bs with
  | nil => intro iv _ _; rfl
  | cons b bs ih =>
    intro iv hiv hbs
    simp only [cbcEncryptBlocks, cbcDecryptBlocks]
    have hb16 : b.length = 16 := hbs b (by simp)
    have hxlen : (xorBytes iv b).length = 16 := by
      rw [xorBytes_length, hiv, hb16]; simp
    have hclen : (p.aesEncBlock key (xorBytes iv b)).length = 16 := by
      rw [hw.enc_len, hxlen]
    rw [hw.dec_enc, xorBytes_cancel iv b (by omega),
      ih _ hclen (fun v hv => hbs v (by simp [hv]))]

/-- A well-formed single-window decryption succeeds and preserves length. -/
theorem aesCbcDecrypt_ok (p : Prims) (hw : PrimsWf p) (key iv data : Bytes)
    (hk : aesKeyOk key = true) (hiv : iv.length = 16) (hd : data.length % 16 = 0) :
    aesCbcDecrypt p key iv data =
      .ok (cbcDecryptBlocks p key iv (chunksOf 16 data)).flatten ∧
    (cbcDecryptBlocks p key iv (chunksOf 16 data)).flatten.length = data.length := by
  constructor
  · simp [aesCbcDecrypt, hk, hiv, hd]
  · have hchunks : ∀ w ∈ chunksOf 16 data, w.length = 16 := fun w hwmem =>
      (chunksOf_mem_length 16 (by omega) data w hwmem).2 hd
    have hout : ∀ b ∈ cbcDecryptBlocks p key iv (chunksOf 16 data), b.length = 16 :=
      cbcDecryptBlocks_length p hw key _ iv hiv hchunks
    rw [flatten_length_const _ hout, cbcDecryptBlocks_count]
    have := flatten_length_const (k := 16) (chunksOf 16 data) hchunks
    rw [chunksOf_flatten 16 (by omega)] at this
    omega

/-- A well-formed single-window encryption succeeds, preserves length, and
decrypts back to the plaintext window. -/
theorem aesCbcEncrypt_roundtrip (p : Prims) (hw : PrimsWf p) (key iv data : Bytes)
    (hk : aesKeyOk key = true) (hiv : iv.length = 16) (hd : data.length % 16 = 0) :
    ∃ c, aesCbcEncrypt p key iv data = .ok c ∧ c.length = data.length ∧
      aesCbcDecrypt p key iv c = .ok data := by
  have hchunks : ∀ w ∈ chunksOf 16 data, w.length = 16 := fun w hwmem =>
    (chunksOf_mem_length 16 (by omega) data w hwmem).2 hd
  refine ⟨(cbcEncryptBlocks p key iv (chunksOf 16 data)).flatten, ?_, ?_, ?_⟩
  · simp [aesCbcEncrypt, hk, hiv, hd]
  · have henc : ∀ c ∈ cbcEncryptBlocks p key iv (chunksOf 16 data), c.length = 16 :=
      cbcEncryptBlocks_length p hw key _ iv hiv hchunks
    rw [flatten_length_const _ henc, cbcEncryptBlocks_count]
    have := flatten_length_const (k := 16) (chunksOf 16 data) hchunks
    rw [chunksOf_flatten 16 (by omega)] at this
    omega
  · have henc : ∀ c ∈ cbcEncryptBlocks p key iv (chunksOf 16 data), c.length = 16 :=
      cbcEncryptBlocks_length p hw key _ iv hiv hchunks
    have hlen : (cbcEncryptBlocks p key iv (chunksOf 16 data)).flatten.length % 16 = 0 := by
      rw [flatten_length_const _ henc]
      simp [Nat.mul_mod_right]
    unfold aesCbcDecrypt
    rw [if_neg (not_not_intro hk), if_neg (not_not_intro hiv),
      if_neg (not_not_intro hlen)]
    rw [chunksOf_flatten_blocks 16 (by omega) _ henc,
      cbc_roundtrip p hw key _ iv hiv hchunks,
      chunksOf_flatten 16 (by omega)]

/-! ### Window-loop lemmas for `decrypt_database` / `encrypt_database` -/

/-- The decryption of one 4096-byte window, as named in the claims: CBC over
the window's 16-byte blocks under the window-independent fixed IV. -/
def cbcDecWindow (p : Prims) (key iv w : Bytes) : Bytes :=
  (cbcDecryptBlocks p key iv (chunksOf 16 w)).flatten

theorem decryptDbGo_fuel (p : Prims) (key iv : Bytes) :
    ∀ f1 f2 (l : Bytes), l.length ≤ f1 → l.length ≤ f2 →
      decryptDbGo p key iv f1 l = decryptDbGo p key iv f2 l := by
  intro f1
  induction f1 with
  | zero =>
    intro f2 l h1 _
    have : l = [] := List.eq_nil_of_length_eq_zero (Nat.le_zero.mp h1)
    subst this
    cases f2 <;> rfl
  | succ f ih =>
    intro f2 l h1 h2
    cases l with
    | nil => cases f2 <;> rfl
    | cons x xs =>
      cases f2 with
      | zero => simp at h2
      | succ g =>
        simp only [decryptDbGo]
        have hd : ((x :: xs).drop 4096).length ≤ f := by
          simp only [List.length_drop, List.length_cons]
          simp only [List.length_cons] at h1
          omega
        have hd2 : ((x :: xs).drop 4096).length ≤ g := by
          simp only [List.length_drop, List.length_cons]
          simp only [List.length_cons] at h2
          omega
        rw [ih g (List.drop 4096 (x :: xs)) hd hd2]

theorem decrypt_database_cons (p : Prims) (key iv : Bytes) (l : Bytes) (hl : l ≠ []) :
    decrypt_database p key iv l =
      match aesCbcDecrypt p key iv (l.take 4096) with
      | .error err => .error err
      | .ok d =>
        match decrypt_database p key iv (l.drop 4096) with
        | .error err => .error err
        | .ok ds => .ok (d ++ ds) := by
  cases l with
  | nil => exact absurd rfl hl
  | cons x xs =>
    show decryptDbGo p key iv (xs.length + 1) (x :: xs) = _
    simp only [decryptDbGo]
    rw [decryptDbGo_fuel p key iv xs.length ((x :: xs).drop 4096).length _
      (by simp only [List.length_drop, List.length_cons]; omega) (le_refl _)]
    rfl

theorem encryptDbGo_fuel (p : Prims) (key iv : Bytes) :
    ∀ f1 f2 (l : Bytes), l.length ≤ f1 → l.length ≤ f2 →
      encryptDbGo p key iv f1 l = encryptDbGo p key iv f2 l := by
  intro f1
  induction f1 with
  | zero =>
    intro f2 l h1 _
    have : l = [] := List.eq_nil_of_length_eq_zero (Nat.le_zero.mp h1)
    subst this
    cases f2 <;> rfl
  | succ f ih =>
    intro f2 l h1 h2
    cases l with
    | nil => cases f2 <;> rfl
    | cons x xs =>
      cases f2 with
      | zero => simp at h2
      | succ g =>
        simp only [encryptDbGo]
        have hd : ((x :: xs).drop 4096).length ≤ f := by
          simp only [List.length_drop, List.length_cons]
          simp only [List.length_cons] at h1
          omega
        have hd2 : ((x :: xs).drop 4096).length ≤ g := by
          simp only [List.length_drop, List.length_cons]
          simp only [List.length_cons] at h2
          omega
        rw [ih g (List.drop 4096 (x :: xs)) hd hd2]

theorem encrypt_database_cons (p : Prims) (key iv : Bytes) (l : Bytes) (hl : l ≠ []) :
    encrypt_database p key iv l =
      match aesCbcEncrypt p key iv (l.take 4096) with
      | .error err => .error err
      | .ok d =>
        match encrypt_database p key iv (l.drop 4096) with
        | .error err => .error err
        | .ok ds => .ok (d ++ ds) := by
  cases l with
  | nil => exact absurd rfl hl
  | cons x xs =>
    show encryptDbGo p key iv (xs.length + 1) (x :: xs) = _
    simp only [encryptDbGo]
    rw [encryptDbGo_fuel p key iv xs.length ((x :: xs).drop 4096).length _
      (by simp only [List.length_drop, List.length_cons]; omega) (le_refl _)]
    rfl

/-- The first window of an aligned input is itself aligned. -/
theorem take_window_aligned (l : Bytes) (h : l.length % 16 = 0) :
    (l.take 4096).length % 16 = 0 := by
  rw [List.length_take]
  rcases Nat.lt_or_ge l.length 4096 with hlt | hge
  · rwa [Nat.min_eq_right (by omega)]
  · rw [Nat.min_eq_left (by omega)]

/-- The remainder past the first window of an aligned input is aligned. -/
theorem drop_window_aligned (l : Bytes) (h : l.length % 16 = 0) :
    (l.drop 4096).length % 16 = 0 := by
  rw [List.length_drop]
  rcases Nat.lt_or_ge l.length 4096 with hlt | hge
  · simp [Nat.sub_eq_zero_of_le (Nat.le_of_lt hlt)]
  · omega

/-- On an aligned input the window loop succeeds and returns exactly the
concatenation of the independently decrypted windows, each under the same
fixed IV. -/
theorem decrypt_database_windows (p : Prims) (hw : PrimsWf p) (key iv : Bytes)
    (hk : aesKeyOk key = true) (hiv : iv.length = 16) :
    ∀ enc : Bytes, enc.length % 16 = 0 →
      decrypt_database p key iv enc =
        .ok ((chunksOf 4096 enc).map (cbcDecWindow p key iv)).flatten := by
  suffices h : ∀ len (enc : Bytes), enc.length = len → enc.length % 16 = 0 →
      decrypt_database p key iv enc =
        .ok ((chunksOf 4096 enc).map (cbcDecWindow p key iv)).flatten from
    fun enc => h enc.length enc rfl
  intro len
  induction len using Nat.strong_induction_on with
  | _ len ih =>
    intro enc hlen hmod
    cases enc with
    | nil => simp [decrypt_database, decryptDbGo, chunksOf_nil]
    | cons x xs =>
      rw [decrypt_database_cons p key iv _ (by simp)]
      have htw := take_window_aligned (x :: xs) hmod
      have hdw := drop_window_aligned (x :: xs) hmod
      rw [(aesCbcDecrypt_ok p hw key iv _ hk hiv htw).1]
      have hdl : ((x :: xs).drop 4096).length < len := by
        subst hlen
        simp only [List.length_drop, List.length_cons]
        omega
      rw [ih _ hdl _ rfl hdw]
      rw [chunksOf_cons 4096 (by omega) (x :: xs) (by simp)]
      simp only [List.map_cons, List.flatten_cons, cbcDecWindow]

/-- On a misaligned input the window loop raises the block-size mismatch. -/
theorem decrypt_database_misaligned (p : Prims) (key iv : Bytes)
    (hk : aesKeyOk key = true) (hiv : iv.length = 16) :
    ∀ enc : Bytes, enc.length % 16 ≠ 0 →
      decrypt_database p key iv enc = .error .blockMismatch := by
  suffices h : ∀ len (enc : Bytes), enc.length = len → enc.length % 16 ≠ 0 →
      decrypt_database p key iv enc = .error .blockMismatch from
    fun enc => h enc.length enc rfl
  intro len
  induction len using Nat.strong_induction_on with
  | _ len ih =>
    intro enc hlen hmod
    cases enc with
    | nil => simp at hmod
    | cons x xs =>
      rw [decrypt_database_cons p key iv _ (by simp)]
      rcases Nat.lt_or_ge (x :: xs).length 4096 with hlt | hge
      · have htake : (x :: xs).take 4096 = x :: xs := List.take_of_length_le (by omega)
        have : aesCbcDecrypt p key iv ((x :: xs).take 4096) = .error .blockMismatch := by
          rw [htake]
          unfold aesCbcDecrypt
          rw [if_neg (not_not_intro hk), if_neg (not_not_intro hiv), if_pos hmod]
        rw [this]
      · have htake : ((x :: xs).take 4096).length % 16 = 0 := by
          rw [List.length_take, Nat.min_eq_left (by omega)]
        have hdrop : ((x :: xs).drop 4096).length % 16 ≠ 0 := by
          rw [List.length_drop]
          omega
        have hdl : ((x :: xs).drop 4096).length < len := by
          subst hlen
          simp only [List.length_drop, List.length_cons]
          omega
        have hok : aesCbcDecrypt p key iv ((x :: xs).take 4096) =
            .ok (cbcDecryptBlocks p key iv (chunksOf 16 ((x :: xs).take 4096))).flatten := by
          unfold aesCbcDecrypt
          rw [if_neg (not_not_intro hk), if_neg (not_not_intro hiv),
            if_neg (not_not_intro htake)]
        rw [hok, ih _ hdl _ rfl hdrop]

theorem flatten_map_length_eq {g : Bytes → Bytes} :
    ∀ ls : List Bytes, (∀ w ∈ ls, (g w).length = w.length) →
      ((ls.map g).flatten).length = ls.flatten.length := by
  intro ls
  induction ls with
  | nil => simp
  | cons w ws ih =>
    intro h
    simp only [List.map_cons, List.flatten_cons, List.length_append]
    rw [h w (by simp), ih (fun v hv => h v (by simp [hv]))]

/-- Every window of an aligned input is aligned. -/
theorem chunksOf_all_aligned (enc : Bytes) (henc : enc.length % 16 = 0) :
    ∀ w ∈ chunksOf 4096 enc, w.length % 16 = 0 := by
  intro w hwmem
  by_contra hne
  exact absurd ((chunksOf_misaligned enc).mp ⟨w, hwmem, hne⟩) (by omega)

/-- On an aligned input the decrypted output has the input's length. -/
theorem decrypt_database_length (p : Prims) (hw : PrimsWf p) (key iv enc : Bytes)
    (hk : aesKeyOk key = true) (hiv : iv.length = 16) (henc : enc.length % 16 = 0) :
    ((chunksOf 4096 enc).map (cbcDecWindow p key iv)).flatten.length = enc.length := by
  have hwin : ∀ w ∈ chunksOf 4096 enc, (cbcDecWindow p key iv w).length = w.length :=
    fun w hwmem =>
      (aesCbcDecrypt_ok p hw key iv w hk hiv (chunksOf_all_aligned enc henc w hwmem)).2
  rw [flatten_map_length_eq _ hwin, chunksOf_flatten 4096 (by omega)]

/-- Window-wise encryption of an aligned plaintext succeeds, preserves the
length, decrypts back to the plaintext, and its first 4096 bytes decrypt to
the plaintext's first 4096 bytes. -/
theorem encrypt_database_roundtrip (p : Prims) (hw : PrimsWf p) (key iv : Bytes)
    (hk : aesKeyOk key = true) (hiv : iv.length = 16) :
    ∀ pt : Bytes, pt.length % 16 = 0 →
      ∃ ct, encrypt_database p key iv pt = .ok ct ∧ ct.length = pt.length ∧
        decrypt_database p key iv ct = .ok pt ∧
        aesCbcDecrypt p key iv (ct.take 4096) = .ok (pt.take 4096) := by
  suffices h : ∀ len (pt : Bytes), pt.length = len → pt.length % 16 = 0 →
      ∃ ct, encrypt_database p key iv pt = .ok ct ∧ ct.length = pt.length ∧
        decrypt_database p key iv ct = .ok pt ∧
        aesCbcDecrypt p key iv (ct.take 4096) = .ok (pt.take 4096) from
    fun pt => h pt.length pt rfl
  intro len
  induction len using Nat.strong_induction_on with
  | _ len ih =>
    intro pt hlen hmod
    cases pt with
    | nil =>
      refine ⟨[], rfl, rfl, rfl, ?_⟩
      show aesCbcDecrypt p key iv [] = .ok []
      unfold aesCbcDecrypt
      rw [if_neg (not_not_intro hk), if_neg (not_not_intro hiv),
        if_neg (not_not_intro (by simp : ([] : Bytes).length % 16 = 0))]
      rfl
    | cons x xs =>
      have htw := take_window_aligned (x :: xs) hmod
      have hdw := drop_window_aligned (x :: xs) hmod
      obtain ⟨c1, hc1, hc1len, hc1dec⟩ :=
        aesCbcEncrypt_roundtrip p hw key iv ((x :: xs).take 4096) hk hiv htw
      have hdl : ((x :: xs).drop 4096).length < len := by
        subst hlen
        simp only [List.length_drop, List.length_cons]
        omega
      obtain ⟨ct2, hct2, hct2len, hct2dec, _⟩ := ih _ hdl ((x :: xs).drop 4096) rfl hdw
      refine ⟨c1 ++ ct2, ?_, ?_, ?_, ?_⟩
      · rw [encrypt_database_cons p key iv _ (by simp), hc1, hct2]
      · rw [List.length_append, hc1len, hct2len, List.length_take, List.length_drop]
        simp only [List.length_cons]
        omega
      · have hc1ne : c1 ++ ct2 ≠ [] := by
          intro hnil
          have := congrArg List.length hnil
          simp only [List.length_append, List.length_nil] at this
          rw [hc1len, List.length_take] at this
          simp only [List.length_cons] at this
          omega
        rw [decrypt_database_cons p key iv _ hc1ne]
        have htk : (c1 ++ ct2).take 4096 = c1 := by
          rcases Nat.lt_or_ge (x :: xs).length 4096 with hlt | hge
          · have hct2nil : ct2 = [] := by
              have : ((x :: xs).drop 4096).length = 0 := by
                rw [List.length_drop]
                omega
              have := hct2len.trans this
              exact List.eq_nil_of_length_eq_zero this
            rw [hct2nil, List.append_nil]
            exact List.take_of_length_le (by
              rw [hc1len, List.length_take]
              omega)
          · have hc1l : c1.length = 4096 := by
              rw [hc1len, List.length_take, Nat.min_eq_left (by omega)]
            rw [← hc1l, List.take_left]
        have hdr : (c1 ++ ct2).drop 4096 = ct2 := by
          rcases Nat.lt_or_ge (x :: xs).length 4096 with hlt | hge
          · have hct2nil : ct2 = [] := by
              have : ((x :: xs).drop 4096).length = 0 := by
                rw [List.length_drop]
                omega
              exact List.eq_nil_of_length_eq_zero (hct2len.trans this)
            rw [hct2nil, List.append_nil]
            exact List.drop_eq_nil_of_le (by
              rw [hc1len, List.length_take]
              omega)
          · have hc1l : c1.length = 4096 := by
              rw [hc1len, List.length_take, Nat.min_eq_left (by omega)]
            rw [← hc1l, List.drop_left]
        rw [htk, hdr, hc1dec, hct2dec]
        exact congrArg Except.ok (List.take_append_drop 4096 (x :: xs))
      · have htk : (c1 ++ ct2).take 4096 = c1 := by
          rcases Nat.lt_or_ge (x :: xs).length 4096 with hlt | hge
          · have hct2nil : ct2 = [] := by
              have : ((x :: xs).drop 4096).length = 0 := by
                rw [List.length_drop]
                omega
              exact List.eq_nil_of_length_eq_zero (hct2len.trans this)
            rw [hct2nil, List.append_nil]
            exact List.take_of_length_le (by
              rw [hc1len, List.length_take]
              omega)
          · have hc1l : c1.length = 4096 := by
              rw [hc1len, List.length_take, Nat.min_eq_left (by omega)]
            rw [← hc1l, List.take_left]
        rw [htk, hc1dec]

/-! ### The doubling loop of `generate_key_and_iv` -/

theorem decReprGo_ne_nil : ∀ f n, decReprGo f n ≠ [] := by
  intro f
  cases f with
  | zero => intro n; simp [decReprGo]
  | succ f =>
    intro n
    simp only [decReprGo]
    by_cases h : n < 10
    · simp [h]
    · simp [h]

theorem decRepr_ne_nil (n : Nat) : decRepr n ≠ [] := decReprGo_ne_nil n n

theorem flatten_replicate_append (s : Bytes) :
    ∀ n, (List.replicate n (s ++ s)).flatten = (List.replicate (2 * n) s).flatten := by
  intro n
  induction n with
  | zero => rfl
  | succ n ih =>
    have h2 : 2 * (n + 1) = (2 * n) + 1 + 1 := by omega
    rw [List.replicate_succ, List.flatten_cons, ih, h2,
      List.replicate_succ, List.replicate_succ, List.flatten_cons, List.flatten_cons,
      List.append_assoc]

theorem length_flatten_replicate (n : Nat) (s : Bytes) :
    (List.replicate n s).flatten.length = n * s.length := by
  induction n with
  | zero => simp
  | succ n ih =>
    rw [List.replicate_succ, List.flatten_cons, List.length_append, ih]
    ring

theorem growKeyGo_spec : ∀ f (s : Bytes), s ≠ [] → 512 ≤ s.length * 2 ^ f →
    ∃ k, growKeyGo f s = (List.replicate (2 ^ k) s).flatten ∧
      512 ≤ (growKeyGo f s).length := by
  intro f
  induction f with
  | zero =>
    intro s _ hlen
    simp only [pow_zero, Nat.mul_one] at hlen
    refine ⟨0, ?_, ?_⟩
    · simp [growKeyGo]
    · show 512 ≤ (growKeyGo 0 s).length
      simpa [growKeyGo] using hlen
  | succ f ih =>
    intro s hne hlen
    by_cases hge : 512 ≤ s.length
    · refine ⟨0, ?_, ?_⟩
      · simp [growKeyGo, hge]
      · simp [growKeyGo, hge]
    · have hsne : s ++ s ≠ [] := by
        intro hnil
        exact hne (List.append_eq_nil.mp hnil).1
      have hlen2 : 512 ≤ (s ++ s).length * 2 ^ f := by
        rw [List.length_append]
        rw [pow_succ] at hlen
        calc 512 ≤ s.length * (2 ^ f * 2) := hlen
          _ = (s.length + s.length) * 2 ^ f := by ring
      obtain ⟨k, hk, hklen⟩ := ih (s ++ s) hsne hlen2
      have hstep : growKeyGo (f + 1) s = growKeyGo f (s ++ s) := by
        simp [growKeyGo, hge, hne]
      refine ⟨k + 1, ?_, ?_⟩
      · rw [hstep, hk, flatten_replicate_append]
        congr 2
        rw [pow_succ]
        omega
      · rw [hstep]
        exact hklen

theorem take_flatten_replicate_le (s : Bytes) (a b : Nat) (hab : a ≤ b)
    (ha : 512 ≤ a * s.length) :
    ((List.replicate a s).flatten).take 512 = ((List.replicate b s).flatten).take 512 := by
  have hsplit : List.replicate b s = List.replicate a s ++ List.replicate (b - a) s := by
    rw [← List.replicate_add]
    congr 1
    omega
  rw [hsplit, List.flatten_append,
    List.take_append_of_le_length (by rw [length_flatten_replicate]; omega)]

/-- The 512-byte cyclic extension of a non-empty string: what the source's
doubling loop followed by `key[:512]` computes. -/
def cyc512 (s : Bytes) : Bytes := ((List.replicate 512 s).flatten).take 512

theorem growKey_take_512 (s : Bytes) (hne : s ≠ []) :
    (growKey s).take 512 = cyc512 s := by
  have hpos : 1 ≤ s.length := by
    cases s with
    | nil => exact absurd rfl hne
    | cons x xs => simp
  have hbig : 512 ≤ s.length * 2 ^ 512 := by
    have h1 : (512 : Nat) = 2 ^ 9 := by norm_num
    have h2 : (2 : Nat) ^ 9 ≤ 2 ^ 512 := Nat.pow_le_pow_right (by omega) (by omega)
    calc 512 = 2 ^ 9 := h1
      _ ≤ 2 ^ 512 := h2
      _ ≤ s.length * 2 ^ 512 := Nat.le_mul_of_pos_left _ (by omega)
  obtain ⟨k, hk, hklen⟩ := growKeyGo_spec 512 s hne hbig
  show (growKeyGo 512 s).take 512 = cyc512 s
  rw [hk]
  have h2k : 512 ≤ 2 ^ k * s.length := by
    rw [hk, length_flatten_replicate] at hklen
    exact hklen
  unfold cyc512
  rcases Nat.le_total (2 ^ k) 512 with hle | hlt
  · exact take_flatten_replicate_le s (2 ^ k) 512 hle h2k
  · exact (take_flatten_replicate_le s 512 (2 ^ k) hlt
      (by nlinarith)).symm

/-- The closed form of `generate_key_and_iv` for a non-empty pragma. -/
theorem generate_key_and_iv_eq (p : Prims) (pragma user_id : Bytes)
    (h : pragma ≠ []) :
    generate_key_and_iv p pragma user_id =
      (p.md5 (cyc512 (pragma ++ user_id)),
       p.md5 (p.b64 (p.md5 (cyc512 (pragma ++ user_id))))) := by
  have hne : pragma ++ user_id ≠ [] := by
    intro hnil
    exact h (List.append_eq_nil.mp hnil).1
  unfold generate_key_and_iv
  rw [growKey_take_512 _ hne]

/-! ### The brute-force search loop -/

/-- Under well-formed primitives, an aligned first window makes every
search iteration return the validation bit without an exception. -/
theorem tryUser_eq_ok (p : Prims) (hw : PrimsWf p) (pragma enc : Bytes) (u : Nat)
    (halign : (enc.take 4096).length % 16 = 0) :
    tryUser p pragma enc u = .ok (validates p pragma enc u) := by
  have hk : aesKeyOk (generate_key_and_iv p pragma (decRepr u)).1 = true := by
    simp [generate_key_and_iv, aesKeyOk, hw.md5_len]
  have hiv : (generate_key_and_iv p pragma (decRepr u)).2.length = 16 := by
    simp [generate_key_and_iv, hw.md5_len]
  obtain ⟨D, hD⟩ : ∃ D, decrypt_database p (generate_key_and_iv p pragma (decRepr u)).1
      (generate_key_and_iv p pragma (decRepr u)).2 (enc.take 4096) = .ok D :=
    ⟨_, decrypt_database_windows p hw
      (generate_key_and_iv p pragma (decRepr u)).1
      (generate_key_and_iv p pragma (decRepr u)).2 hk hiv (enc.take 4096) halign⟩
  simp only [tryUser, validates, hD]
  cases verify_sqlite_header D <;> rfl

theorem fuiLoop_all_false (p : Prims) (pragma enc : Bytes) :
    ∀ us : List Nat, (∀ u ∈ us, tryUser p pragma enc u = .ok false) →
      fuiLoop p pragma enc us = .ok none := by
  intro us
  induction us with
  | nil => intro _; rfl
  | cons u us ih =>
    intro h
    have hu := h u (by simp)
    simp only [fuiLoop, hu]
    exact ih (fun v hv => h v (by simp [hv]))

theorem fuiLoop_none_imp (p : Prims) (pragma enc : Bytes) :
    ∀ us : List Nat, fuiLoop p pragma enc us = .ok none →
      ∀ u ∈ us, tryUser p pragma enc u = .ok false := by
  intro us
  induction us with
  | nil => intro _ u hu; simp at hu
  | cons v us ih =>
    intro h u hu
    rcases htry : tryUser p pragma enc v with e | b
    · rw [fuiLoop, htry] at h
      exact absurd h (by simp)
    · cases b with
      | true =>
        rw [fuiLoop, htry] at h
        exact absurd h (by simp)
      | false =>
        rw [fuiLoop, htry] at h
        rcases List.mem_cons.mp hu with rfl | hu2
        · exact htry
        · exact ih h u hu2

theorem fuiLoop_found (p : Prims) (pragma enc : Bytes) (u : Nat) :
    ∀ (pre post : List Nat), (∀ v ∈ pre, tryUser p pragma enc v = .ok false) →
      tryUser p pragma enc u = .ok true →
      fuiLoop p pragma enc (pre ++ u :: post) = .ok (some (decRepr u)) := by
  intro pre
  induction pre with
  | nil =>
    intro post _ hu
    simp only [List.nil_append, fuiLoop, hu]
  | cons v pre ih =>
    intro post hpre hu
    have hv := hpre v (by simp)
    simp only [List.cons_append, fuiLoop, hv]
    exact ih post (fun w hwmem => hpre w (by simp [hwmem])) hu

/-- On an aligned first window, `find_user_id` returns `None` exactly when
no identifier in `1 .. max_attempts` validates. -/
theorem find_user_id_none_iff (p : Prims) (hw : PrimsWf p) (pragma enc : Bytes)
    (max_attempts : Nat) (halign : (enc.take 4096).length % 16 = 0) :
    find_user_id p pragma enc max_attempts = .ok none ↔
      ∀ u, 1 ≤ u → u ≤ max_attempts → validates p pragma enc u = false := by
  constructor
  · intro h u h1 h2
    have := fuiLoop_none_imp p pragma enc _ h u
      (List.mem_range'_1.mpr ⟨h1, by omega⟩)
    rw [tryUser_eq_ok p hw pragma enc u halign] at this
    simpa using this
  · intro h
    apply fuiLoop_all_false
    intro u hu
    obtain ⟨h1, h2⟩ := List.mem_range'_1.mp hu
    rw [tryUser_eq_ok p hw pragma enc u halign, h u h1 (by omega)]

/-- On an aligned first window, `find_user_id` returns the decimal string
of the smallest validating identifier within the bound. -/
theorem find_user_id_least (p : Prims) (hw : PrimsWf p) (pragma enc : Bytes)
    (max_attempts n : Nat) (halign : (enc.take 4096).length % 16 = 0)
    (h1 : 1 ≤ n) (h2 : n ≤ max_attempts)
    (hval : validates p pragma enc n = true)
    (hmin : ∀ m, 1 ≤ m → m < n → validates p pragma enc m = false) :
    find_user_id p pragma enc max_attempts = .ok (some (decRepr n)) := by
  have hsplit : List.range' 1 max_attempts =
      List.range' 1 (n - 1) ++ n :: List.range' (n + 1) (max_attempts - n) := by
    have h3 : List.range' 1 (n - 1) ++ List.range' (1 + (n - 1)) (max_attempts - (n - 1)) =
        List.range' 1 (max_attempts - (n - 1) + (n - 1)) := by
      have := List.range'_append 1 (n - 1) (max_attempts - (n - 1)) 1
      simpa using this
    have h4 : max_attempts - (n - 1) + (n - 1) = max_attempts := by omega
    have h5 : 1 + (n - 1) = n := by omega
    rw [h4, h5] at h3
    rw [← h3]
    congr 1
    have h6 : max_attempts - (n - 1) = (max_attempts - n) + 1 := by omega
    rw [h6, List.range'_succ]
  rw [find_user_id, hsplit]
  apply fuiLoop_found
  · intro v hv
    obtain ⟨hv1, hv2⟩ := List.mem_range'_1.mp hv
    rw [tryUser_eq_ok p hw pragma enc v halign, hmin v hv1 (by omega)]
  · rw [tryUser_eq_ok p hw pragma enc n halign, hval]

/-! ### Header validation and synthetic ciphertexts -/

theorem verify_sqlite_header_iff (data : Bytes) :
    verify_sqlite_header data = true ↔ data.take 16 = sqliteMagic := by
  simp [verify_sqlite_header]

/-- A whole input of at most one window decrypts exactly like a single
library call. -/
theorem decrypt_database_single (p : Prims) (key iv l : Bytes)
    (hk : aesKeyOk key = true) (hiv : iv.length = 16)
    (hl : l.length ≤ 4096) (hal : l.length % 16 = 0) :
    decrypt_database p key iv l = aesCbcDecrypt p key iv l := by
  cases l with
  | nil =>
    show Except.ok [] = aesCbcDecrypt p key iv []
    unfold aesCbcDecrypt
    rw [if_neg (not_not_intro hk), if_neg (not_not_intro hiv),
      if_neg (not_not_intro (by simp : ([] : Bytes).length % 16 = 0))]
    rfl
  | cons x xs =>
    rw [decrypt_database_cons p key iv _ (by simp)]
    have htk : (x :: xs).take 4096 = x :: xs := List.take_of_length_le hl
    have hdr : (x :: xs).drop 4096 = [] := List.drop_eq_nil_of_le hl
    rw [htk, hdr]
    have hok : aesCbcDecrypt p key iv (x :: xs) =
        .ok (cbcDecryptBlocks p key iv (chunksOf 16 (x :: xs))).flatten := by
      unfold aesCbcDecrypt
      rw [if_neg (not_not_intro hk), if_neg (not_not_intro hiv),
        if_neg (not_not_intro hal)]
    rw [hok]
    show Except.ok (_ ++ ([] : Bytes)) = _
    rw [List.append_nil]

/-- Encrypting a magic-prefixed aligned plaintext under the credentials of
identifier `N` produces a ciphertext that `N` validates. -/
theorem validates_synthetic (p : Prims) (hw : PrimsWf p) (pragma : Bytes)
    (N : Nat) (pt ct : Bytes)
    (hmagic : pt.take 16 = sqliteMagic) (hptlen : pt.length % 16 = 0)
    (hct : encrypt_database p (generate_key_and_iv p pragma (decRepr N)).1
      (generate_key_and_iv p pragma (decRepr N)).2 pt = .ok ct) :
    validates p pragma ct N = true := by
  have hk : aesKeyOk (generate_key_and_iv p pragma (decRepr N)).1 = true := by
    simp [generate_key_and_iv, aesKeyOk, hw.md5_len]
  have hiv : (generate_key_and_iv p pragma (decRepr N)).2.length = 16 := by
    simp [generate_key_and_iv, hw.md5_len]
  obtain ⟨ct', hct', hctlen, _, hfirst⟩ :=
    encrypt_database_roundtrip p hw _ _ hk hiv pt hptlen
  rw [hct'] at hct
  injection hct with hcteq
  subst hcteq
  have htake_le : (ct'.take 4096).length ≤ 4096 := by
    rw [List.length_take]
    omega
  have htake_al : (ct'.take 4096).length % 16 = 0 := by
    apply take_window_aligned
    omega
  have hdd : decrypt_database p (generate_key_and_iv p pragma (decRepr N)).1
      (generate_key_and_iv p pragma (decRepr N)).2 (ct'.take 4096) =
      .ok (pt.take 4096) := by
    rw [decrypt_database_single p _ _ _ hk hiv htake_le htake_al, hfirst]
  have hverify : verify_sqlite_header (pt.take 4096) = true := by
    rw [verify_sqlite_header_iff, List.take_take]
    simpa using hmagic
  simp only [validates, tryUser, hdd, hverify]

/-! ### The candidate loop of `_find_working_credentials` -/

theorem pkcs7Pad_aligned (data : Bytes) : (pkcs7Pad data).length % 16 = 0 := by
  unfold pkcs7Pad
  rw [List.length_append, List.length_replicate]
  omega

/-- With a 16-byte key, `generate_pragma` always succeeds. -/
theorem generate_pragma_ok (p : Prims) (u m s kb : Bytes) (hkb : kb.length = 16) :
    ∃ pr, generate_pragma p u m s kb = .ok pr := by
  have hk : aesKeyOk kb = true := by simp [aesKeyOk, hkb]
  have hok : aesCbcEncrypt p kb (List.replicate 16 0)
      (pkcs7Pad (u ++ [124] ++ m ++ [124] ++ s)) =
      .ok (cbcEncryptBlocks p kb (List.replicate 16 0)
        (chunksOf 16 (pkcs7Pad (u ++ [124] ++ m ++ [124] ++ s)))).flatten := by
    unfold aesCbcEncrypt
    rw [if_neg (not_not_intro hk),
      if_neg (not_not_intro (by simp : (List.replicate 16 (0 : Nat)).length = 16)),
      if_neg (not_not_intro (pkcs7Pad_aligned _))]
  refine ⟨p.b64 (p.sha512 (cbcEncryptBlocks p kb (List.replicate 16 0)
    (chunksOf 16 (pkcs7Pad (u ++ [124] ++ m ++ [124] ++ s)))).flatten), ?_⟩
  simp only [generate_pragma, hok]

/-- One candidate is passed over by the loop: it hex-decodes, and is either
not 16 bytes long or its pragma finds no identifier within the bound. -/
def candidateFails (p : Prims) (di : DeviceInfo) (enc nk : Bytes) : Prop :=
  ∃ kb, hexDecode nk = some kb ∧
    (kb.length ≠ 16 ∨
      ∃ pr, generate_pragma p di.uuid di.model di.serial kb = .ok pr ∧
        find_user_id p pr enc 50000 = .ok none)

/-- One candidate makes the loop stop with credentials `c`. -/
def candidateSucceeds (p : Prims) (di : DeviceInfo) (enc nk : Bytes) (c : Creds) : Prop :=
  ∃ kb pr uid, hexDecode nk = some kb ∧ kb.length = 16 ∧
    generate_pragma p di.uuid di.model di.serial kb = .ok pr ∧
    find_user_id p pr enc 50000 = .ok (some uid) ∧
    c = { uuid := di.uuid, model := di.model, serial := di.serial,
          network_key := nk, pragma := pr, user_id := uid }

theorem credsLoop_all_fail (p : Prims) (di : DeviceInfo) (enc : Bytes) :
    ∀ nks : List Bytes, (∀ nk ∈ nks, candidateFails p di enc nk) →
      credsLoop p di enc nks = .inl none := by
  intro nks
  induction nks with
  | nil => intro _; rfl
  | cons nk rest ih =>
    intro h
    obtain ⟨kb, hkb, hfail⟩ := h nk (by simp)
    have hrest := ih (fun v hv => h v (by simp [hv]))
    rcases hfail with hlen | ⟨pr, hpr, hnone⟩
    · simp only [credsLoop, hkb]
      rw [if_pos hlen]
      exact hrest
    · by_cases hlen : kb.length ≠ 16
      · simp only [credsLoop, hkb]
        rw [if_pos hlen]
        exact hrest
      · simp only [credsLoop, hkb]
        rw [if_neg hlen]
        simp only [hpr, hnone]
        exact hrest

theorem credsLoop_first_success (p : Prims) (di : DeviceInfo) (enc : Bytes)
    (nk : Bytes) (c : Creds) :
    ∀ (pre post : List Bytes), (∀ v ∈ pre, candidateFails p di enc v) →
      candidateSucceeds p di enc nk c →
      credsLoop p di enc (pre ++ nk :: post) = .inl (some c) := by
  intro pre
  induction pre with
  | nil =>
    intro post _ hs
    obtain ⟨kb, pr, uid, hkb, hlen, hpr, hfind, hc⟩ := hs
    subst hc
    simp only [List.nil_append, credsLoop, hkb]
    rw [if_neg (by omega)]
    simp only [hpr, hfind]
  | cons v pre ih =>
    intro post hpre hs
    obtain ⟨kb, hkb, hfail⟩ := hpre v (by simp)
    have hrest := ih post (fun w hwmem => hpre w (by simp [hwmem])) hs
    rcases hfail with hlen | ⟨pr, hpr, hnone⟩
    · simp only [List.cons_append, credsLoop, hkb]
      rw [if_pos hlen]
      exact hrest
    · by_cases hlen : kb.length ≠ 16
      · simp only [List.cons_append, credsLoop, hkb]
        rw [if_pos hlen]
        exact hrest
      · simp only [List.cons_append, credsLoop, hkb]
        rw [if_neg hlen]
        simp only [hpr, hnone]
        exact hrest

/-! ### `_find_working_credentials` lemmas -/

/-- A device secret is incomplete when absent or when any field is empty. -/
def incompleteDevice (st : DecState) : Prop :=
  st.device_info = none ∨
    ∃ di, st.device_info = some di ∧ (di.uuid = [] ∨ di.model = [] ∨ di.serial = [])

theorem fwc_cached (p : Prims) (st : DecState) (enc : Bytes) (c : Creds)
    (h : st.cached = some c) :
    find_working_credentials p st enc = (.found c, st) := by
  unfold find_working_credentials
  simp only [h]

theorem fwc_missing (p : Prims) (st : DecState) (enc : Bytes)
    (hc : st.cached = none) (hinc : incompleteDevice st) :
    find_working_credentials p st enc = (.missingDeviceInfo, st) := by
  unfold find_working_credentials
  simp only [hc]
  rcases hinc with hnone | ⟨di, hdi, hfield⟩
  · simp only [hnone]
  · simp only [hdi]
    rw [if_pos hfield]

theorem fwc_missing_iff (p : Prims) (st : DecState) (enc : Bytes)
    (hc : st.cached = none) :
    (find_working_credentials p st enc).1 = .missingDeviceInfo ↔
      incompleteDevice st := by
  constructor
  · intro h
    by_contra hinc
    unfold incompleteDevice at hinc
    push_neg at hinc
    obtain ⟨hnone, hfields⟩ := hinc
    rcases hdi : st.device_info with _ | di
    · exact hnone hdi
    · have hcomp := hfields di hdi
      push_neg at hcomp
      unfold find_working_credentials at h
      simp only [hc, hdi] at h
      rw [if_neg (by tauto)] at h
      rcases hloop : credsLoop p di enc st.network_keys with copt | e
      · cases copt with
        | none => simp only [hloop] at h; simp at h
        | some c => simp only [hloop] at h; simp at h
      · simp only [hloop] at h; simp at h
  · exact fun hinc => by rw [fwc_missing p st enc hc hinc]

theorem fwc_notfound (p : Prims) (st : DecState) (enc : Bytes) (di : DeviceInfo)
    (hc : st.cached = none) (hdi : st.device_info = some di)
    (hu : di.uuid ≠ []) (hm : di.model ≠ []) (hs : di.serial ≠ [])
    (hfail : ∀ nk ∈ st.network_keys, candidateFails p di enc nk) :
    find_working_credentials p st enc = (.credentialsNotFound, st) := by
  unfold find_working_credentials
  simp only [hc, hdi]
  rw [if_neg (by tauto)]
  simp only [credsLoop_all_fail p di enc _ hfail]

theorem fwc_success (p : Prims) (st : DecState) (enc : Bytes) (di : DeviceInfo)
    (nk : Bytes) (c : Creds) (pre post : List Bytes)
    (hc : st.cached = none) (hdi : st.device_info = some di)
    (hu : di.uuid ≠ []) (hm : di.model ≠ []) (hs : di.serial ≠ [])
    (hkeys : st.network_keys = pre ++ nk :: post)
    (hpre : ∀ v ∈ pre, candidateFails p di enc v)
    (hsucc : candidateSucceeds p di enc nk c) :
    find_working_credentials p st enc = (.found c, { st with cached := some c }) := by
  unfold find_working_credentials
  simp only [hc, hdi]
  rw [if_neg (by tauto), hkeys]
  simp only [credsLoop_first_success p di enc nk c pre post hpre hsucc]

/-- Whatever the inputs, a `found` outcome leaves the result cached in the
returned state. -/
theorem fwc_found_cached (p : Prims) (st : DecState) (enc : Bytes) (c : Creds)
    (st' : DecState) (h : find_working_credentials p st enc = (.found c, st')) :
    st'.cached = some c := by
  unfold find_working_credentials at h
  rcases hc : st.cached with _ | c0
  · simp only [hc] at h
    rcases hdi : st.device_info with _ | di
    · simp only [hdi] at h
      simp at h
    · simp only [hdi] at h
      by_cases hfield : di.uuid = [] ∨ di.model = [] ∨ di.serial = []
      · rw [if_pos hfield] at h
        simp at h
      · rw [if_neg hfield] at h
        rcases hloop : credsLoop p di enc st.network_keys with copt | e
        · cases copt with
          | none => simp only [hloop] at h; simp at h
          | some c1 =>
            simp only [hloop] at h
            simp only [Prod.mk.injEq, FindOutcome.found.injEq] at h
            obtain ⟨rfl, rfl⟩ := h
            rfl
        · simp only [hloop] at h; simp at h
  · simp only [hc] at h
    simp only [Prod.mk.injEq, FindOutcome.found.injEq] at h
    obtain ⟨rfl, rfl⟩ := h
    exact hc

/-! ### Extraction lemmas -/

theorem extractRows_append :
    ∀ a b : List Table, extractRows (a ++ b) = extractRows a ++ extractRows b := by
  intro a
  induction a with
  | nil => intro b; rfl
  | cons t ts ih =>
    intro b
    by_cases hm : tableMatches t.name = true
    · rcases hq : queryRecent t with e | rs
      · simp only [List.cons_append, extractRows, hm, if_true, hq]
        exact ih b
      · simp only [List.cons_append, extractRows, hm, if_true, hq]
        rw [List.append_eq, ih b, List.append_assoc]
    · simp only [List.cons_append, extractRows, hm]
      simp only [Bool.false_eq_true, if_false]
      exact ih b

/-- Non-matching tables contribute nothing: extraction only reads tables
whose lower-cased name contains "log" or "message". -/
theorem extractRows_filter :
    ∀ ts : List Table,
      extractRows ts = extractRows (ts.filter (fun t => tableMatches t.name)) := by
  intro ts
  induction ts with
  | nil => rfl
  | cons t ts ih =>
    by_cases hm : tableMatches t.name = true
    · rw [List.filter_cons_of_pos (by simpa using hm)]
      simp only [extractRows]
      rw [if_pos hm, if_pos hm]
      rcases hq : queryRecent t with e | rs <;> simp only [hq, ih]
    · rw [List.filter_cons_of_neg (by simpa using hm)]
      simp only [extractRows]
      rw [if_neg hm]
      exact ih

theorem queryRecent_ok_length (t : Table) (rs : List Row)
    (h : queryRecent t = .ok rs) : rs.length ≤ 1000 := by
  unfold queryRecent at h
  by_cases hs : t.schemaOk = true
  · rw [if_pos hs] at h
    injection h with h
    rw [← h, List.length_take]
    omega
  · rw [if_neg hs] at h
    exact absurd h (by simp)

theorem insertDesc_mem (r y : Row) :
    ∀ l : List Row, y ∈ insertDesc r l ↔ y = r ∨ y ∈ l := by
  intro l
  induction l with
  | nil => simp [insertDesc]
  | cons x xs ih =>
    by_cases hle : x.sendAt ≤ r.sendAt
    · simp only [insertDesc, if_pos hle, List.mem_cons]
      try tauto
    · simp only [insertDesc, if_neg hle, List.mem_cons, ih]
      try tauto

theorem insertDesc_pairwise (r : Row) :
    ∀ l : List Row, l.Pairwise (fun a b => b.sendAt ≤ a.sendAt) →
      (insertDesc r l).Pairwise (fun a b => b.sendAt ≤ a.sendAt) := by
  intro l
  induction l with
  | nil => intro _; simp [insertDesc]
  | cons x xs ih =>
    intro hp
    rcases List.pairwise_cons.mp hp with ⟨hx, hxs⟩
    by_cases hle : x.sendAt ≤ r.sendAt
    · rw [insertDesc, if_pos hle]
      refine List.pairwise_cons.mpr ⟨?_, hp⟩
      intro y hy
      rcases List.mem_cons.mp hy with rfl | hy2
      · exact hle
      · exact le_trans (hx y hy2) hle
    · rw [insertDesc, if_neg hle]
      refine List.pairwise_cons.mpr ⟨?_, ih hxs⟩
      intro y hy
      rcases (insertDesc_mem r y xs).mp hy with rfl | hy2
      · omega
      · exact hx y hy2

theorem sortDesc_pairwise (l : List Row) :
    (sortDesc l).Pairwise (fun a b => b.sendAt ≤ a.sendAt) := by
  unfold sortDesc
  induction l with
  | nil => simp
  | cons r rs ih =>
    exact insertDesc_pairwise r _ ih

/-- A successful per-table query returns at most 1000 rows, most recent
first. -/
theorem queryRecent_spec (t : Table) (rs : List Row) (h : queryRecent t = .ok rs) :
    rs.length ≤ 1000 ∧ rs.Pairwise (fun a b => b.sendAt ≤ a.sendAt) := by
  refine ⟨queryRecent_ok_length t rs h, ?_⟩
  unfold queryRecent at h
  by_cases hs : t.schemaOk = true
  · rw [if_pos hs] at h
    injection h with h
    rw [← h]
    exact (sortDesc_pairwise t.rows).sublist (List.take_sublist _ _)
  · rw [if_neg hs] at h
    exact absurd h (by simp)

/-! ### Concrete fixtures for evaluating the theorems -/

instance {ε α : Type _} [DecidableEq ε] [DecidableEq α] :
    DecidableEq (Except ε α) := fun a b =>
  match a, b with
  | .error e1, .error e2 =>
    if h : e1 = e2 then isTrue (by rw [h])
    else isFalse (fun hc => by injection hc with h2; exact h h2)
  | .ok v1, .ok v2 =>
    if h : v1 = v2 then isTrue (by rw [h])
    else isFalse (fun hc => by injection hc with h2; exact h h2)
  | .error _, .ok _ => isFalse (fun hc => Except.noConfusion hc)
  | .ok _, .error _ => isFalse (fun hc => Except.noConfusion hc)

/-- Fixture: a 16-byte zero AES key. -/
def fixKeyBytes : Bytes := List.replicate 16 0

/-- Fixture: the 32-character hex string (ASCII zeros) of `fixKeyBytes`,
shaped like a separator-stripped adapter GUID. -/
def fixNetKey : Bytes := List.replicate 32 48

/-- Fixture: the device secret {"U", "M", "S"}. -/
def fixDevice : DeviceInfo := { uuid := [85], model := [77], serial := [83] }

/-- Fixture: the pragma derived from `fixDevice` and `fixKeyBytes` under the
concrete primitives. -/
def fixPragma : Bytes :=
  match generate_pragma dummyPrims [85] [77] [83] fixKeyBytes with
  | .ok v => v
  | .error _ => []

/-- Fixture: the credentials of identifier `n` under `fixPragma`. -/
def fixKi (n : Nat) : Bytes × Bytes :=
  generate_key_and_iv dummyPrims fixPragma (decRepr n)

/-- Fixture: a one-window ciphertext of the bare magic header, encrypted
under the credentials of identifier `n`. -/
def fixCt (n : Nat) : Bytes :=
  match encrypt_database dummyPrims (fixKi n).1 (fixKi n).2 sqliteMagic with
  | .ok v => v
  | .error _ => []

/-- Fixture: a freshly constructed decryptor state: complete device secret,
one candidate network key, empty cache. -/
def fixState : DecState :=
  { device_info := some fixDevice, network_keys := [fixNetKey], cached := none }

/-- The credentials dictionary built at the loop's success site. -/
def mkCreds (di : DeviceInfo) (nk pr uid : Bytes) : Creds :=
  { uuid := di.uuid, model := di.model, serial := di.serial,
    network_key := nk, pragma := pr, user_id := uid }

/-- Fixture: the credentials the search finds on `fixCt 1`. -/
def fixCreds1 : Creds :=
  { uuid := [85], model := [77], serial := [83],
    network_key := fixNetKey, pragma := fixPragma, user_id := decRepr 1 }

/-! ### Claim theorems -/

/-- C2: for every 16-byte key, 16-byte iv and ciphertext, `decrypt_database`
partitions the ciphertext into consecutive 4096-byte windows (final window
possibly shorter), decrypts every window independently with AES-CBC under
the same fixed iv, and returns their concatenation, whose length equals the
input length; it fails, always with the block-size mismatch error, exactly
when some window's length is not a multiple of 16. -/
theorem C2_decrypt_database (p : Prims) (hw : PrimsWf p) (key iv : Bytes)
    (hkey : key.length = 16) (hiv : iv.length = 16) (enc_db : Bytes) :
    (enc_db.length % 16 = 0 →
      decrypt_database p key iv enc_db =
        .ok ((chunksOf 4096 enc_db).map (cbcDecWindow p key iv)).flatten ∧
      ((chunksOf 4096 enc_db).map (cbcDecWindow p key iv)).flatten.length =
        enc_db.length) ∧
    (decrypt_database p key iv enc_db = .error .blockMismatch ↔
      ∃ w ∈ chunksOf 4096 enc_db, w.length % 16 ≠ 0) ∧
    (∀ e, decrypt_database p key iv enc_db = .error e → e = .blockMismatch) := by
  have hk : aesKeyOk key = true := by simp [aesKeyOk, hkey]
  refine ⟨fun hal => ⟨decrypt_database_windows p hw key iv hk hiv enc_db hal,
    decrypt_database_length p hw key iv enc_db hk hiv hal⟩, ⟨?_, ?_⟩, ?_⟩
  · intro herr
    apply (chunksOf_misaligned enc_db).mpr
    intro hal
    rw [decrypt_database_windows p hw key iv hk hiv enc_db hal] at herr
    exact Except.noConfusion herr
  · intro hex
    exact decrypt_database_misaligned p key iv hk hiv enc_db
      ((chunksOf_misaligned enc_db).mp hex)
  · intro e he
    by_cases hal : enc_db.length % 16 = 0
    · rw [decrypt_database_windows p hw key iv hk hiv enc_db hal] at he
      exact absurd he (by simp)
    · rw [decrypt_database_misaligned p key iv hk hiv enc_db hal] at he
      injection he with h2
      exact h2.symm

theorem C2_witness :
    decrypt_database dummyPrims (List.replicate 16 0) (List.replicate 16 0)
      sqliteMagic =
      .ok ((chunksOf 4096 sqliteMagic).map
        (cbcDecWindow dummyPrims (List.replicate 16 0) (List.replicate 16 0))).flatten :=
  ((C2_decrypt_database dummyPrims dummyPrims_wf (List.replicate 16 0)
    (List.replicate 16 0) (by decide) (by decide) sqliteMagic).1 (by decide)).1

/-- C3: for every non-empty pragma, `generate_key_and_iv` concatenates the
pragma with the user-id string, self-duplicates the result to at least 512
bytes and truncates it to exactly 512, returning key = MD5 of that string
and iv = MD5 of the base64 of the key; it is total and deterministic. -/
theorem C3_generate_key_and_iv (p : Prims) (pragma user_id : Bytes)
    (h : pragma ≠ []) :
    generate_key_and_iv p pragma user_id =
      (p.md5 (cyc512 (pragma ++ user_id)),
       p.md5 (p.b64 (p.md5 (cyc512 (pragma ++ user_id))))) ∧
    (cyc512 (pragma ++ user_id)).length = 512 ∧
    (∀ pragma2 user_id2, pragma2 = pragma → user_id2 = user_id →
      generate_key_and_iv p pragma2 user_id2 =
        generate_key_and_iv p pragma user_id) := by
  refine ⟨generate_key_and_iv_eq p pragma user_id h, ?_, ?_⟩
  · have hpos : 1 ≤ (pragma ++ user_id).length := by
      rw [List.length_append]
      have := List.length_pos.mpr h
      omega
    rw [cyc512, List.length_take, length_flatten_replicate,
      Nat.min_eq_left (by omega)]
  · intro pragma2 user_id2 h1 h2
    rw [h1, h2]

theorem C3_witness :
    generate_key_and_iv dummyPrims [97] [49] =
      (dummyPrims.md5 (cyc512 ([97] ++ [49])),
       dummyPrims.md5 (dummyPrims.b64 (dummyPrims.md5 (cyc512 ([97] ++ [49]))))) :=
  (C3_generate_key_and_iv dummyPrims [97] [49] (by decide)).1

/-- C5: the header validator returns true exactly when the first 16 bytes
equal the fixed magic literal, and mutating any single byte within that
prefix of a valid input flips the result to false. -/
theorem C5_verify_sqlite_header :
    (∀ data : Bytes, verify_sqlite_header data = true ↔
      data.take 16 = sqliteMagic) ∧
    (∀ (data : Bytes) (i b : Nat), data.take 16 = sqliteMagic → i < 16 →
      b ≠ sqliteMagic.getD i 0 →
      verify_sqlite_header (data.set i b) = false) := by
  refine ⟨verify_sqlite_header_iff, ?_⟩
  intro data i b hdata hi hb
  have hset : (data.set i b).take 16 = sqliteMagic.set i b := by
    rw [List.set_take, hdata]
  simp only [verify_sqlite_header]
  rw [hset, decide_eq_false_iff_not]
  intro hcontra
  apply hb
  interval_cases i <;> simp_all [sqliteMagic]

theorem C5_witness :
    verify_sqlite_header (sqliteMagic.set 0 0) = false ∧
    (verify_sqlite_header sqliteMagic = true ↔
      sqliteMagic.take 16 = sqliteMagic) :=
  ⟨C5_verify_sqlite_header.2 sqliteMagic 0 0 (by decide) (by decide) (by decide),
   C5_verify_sqlite_header.1 sqliteMagic⟩

/-- C6 (amended): `generate_pragma` deterministically returns the base64 of
the SHA-512 digest of the zero-IV AES-CBC encryption of the padded
`"uuid|model|serial"` string for every 16-byte key, and fails with the
invalid-key-length error exactly for key lengths outside AES's accepted
sizes 16, 24 and 32 — not for every non-16-byte key as claimed. -/
theorem C6_generate_pragma (p : Prims) (uuid model_name serial_number key : Bytes) :
    (key.length = 16 →
      generate_pragma p uuid model_name serial_number key =
        .ok (p.b64 (p.sha512 (cbcEncryptBlocks p key (List.replicate 16 0)
          (chunksOf 16 (pkcs7Pad (uuid ++ [124] ++ model_name ++ [124] ++
            serial_number)))).flatten))) ∧
    (¬ (key.length = 16 ∨ key.length = 24 ∨ key.length = 32) →
      generate_pragma p uuid model_name serial_number key =
        .error .invalidKeyLength) := by
  constructor
  · intro hkb
    have hk : aesKeyOk key = true := by simp [aesKeyOk, hkb]
    have hok : aesCbcEncrypt p key (List.replicate 16 0)
        (pkcs7Pad (uuid ++ [124] ++ model_name ++ [124] ++ serial_number)) =
        .ok (cbcEncryptBlocks p key (List.replicate 16 0)
          (chunksOf 16 (pkcs7Pad (uuid ++ [124] ++ model_name ++ [124] ++
            serial_number)))).flatten := by
      unfold aesCbcEncrypt
      rw [if_neg (not_not_intro hk),
        if_neg (not_not_intro (by simp : (List.replicate 16 (0 : Nat)).length = 16)),
        if_neg (not_not_intro (pkcs7Pad_aligned _))]
    simp only [generate_pragma, hok]
  · intro hbad
    have hk : ¬ aesKeyOk key = true := by
      simp only [aesKeyOk, Bool.or_eq_true, decide_eq_true_eq]
      tauto
    have herr : aesCbcEncrypt p key (List.replicate 16 0)
        (pkcs7Pad (uuid ++ [124] ++ model_name ++ [124] ++ serial_number)) =
        .error .invalidKeyLength := by
      unfold aesCbcEncrypt
      rw [if_pos hk]
    simp only [generate_pragma, herr]

theorem C6_counterexample :
    (List.replicate 24 (0 : Nat)).length ≠ 16 ∧
    ∃ pr, generate_pragma dummyPrims [] [] [] (List.replicate 24 0) = .ok pr :=
  ⟨by decide, _, rfl⟩

theorem C6_witness :
    generate_pragma dummyPrims [85] [77] [83] (List.replicate 16 0) =
      .ok (dummyPrims.b64 (dummyPrims.sha512 (cbcEncryptBlocks dummyPrims
        (List.replicate 16 0) (List.replicate 16 0)
        (chunksOf 16 (pkcs7Pad ([85] ++ [124] ++ [77] ++ [124] ++
          [83])))).flatten)) :=
  (C6_generate_pragma dummyPrims [85] [77] [83] (List.replicate 16 0)).1 (by decide)

/-- C10: a cached credential is returned immediately and unchanged by every
subsequent search, regardless of the ciphertext, the candidate list or the
device secret; a successful search leaves its result in the cache; and a
decryptor holding cached credentials never reports missing device info. -/
theorem C10_cached_credentials (p : Prims) :
    (∀ st enc_db c, st.cached = some c →
      find_working_credentials p st enc_db = (.found c, st)) ∧
    (∀ st enc_db c st2, find_working_credentials p st enc_db = (.found c, st2) →
      st2.cached = some c ∧
      ∀ enc2, find_working_credentials p st2 enc2 = (.found c, st2)) ∧
    (∀ st enc_db c, st.cached = some c →
      (find_working_credentials p st enc_db).1 ≠ .missingDeviceInfo) := by
  refine ⟨fun st enc c h => fwc_cached p st enc c h, ?_, ?_⟩
  · intro st enc c st2 h
    have hcache := fwc_found_cached p st enc c st2 h
    exact ⟨hcache, fun enc2 => fwc_cached p st2 enc2 c hcache⟩
  · intro st enc c h
    rw [fwc_cached p st enc c h]
    simp

/-- A state whose device secret is absent but whose cache is populated. -/
def fixStateCached : DecState :=
  { device_info := none, network_keys := [], cached := some fixCreds1 }

theorem C10_witness :
    find_working_credentials dummyPrims fixStateCached [] =
      (.found fixCreds1, fixStateCached) :=
  (C10_cached_credentials dummyPrims).1 fixStateCached [] fixCreds1 rfl

/-- C7: with no cached credentials, the search fails with the
missing-device-info outcome exactly when the device secret is incomplete,
and does so regardless of the candidate list — before trying any
candidate; with a complete device secret it iterates candidates in order,
returns and caches the first success, and reports credentials-not-found
only after every candidate is exhausted. -/
theorem C7_find_working_credentials (p : Prims) (st : DecState) (enc_db : Bytes)
    (hc : st.cached = none) :
    ((find_working_credentials p st enc_db).1 = .missingDeviceInfo ↔
      incompleteDevice st) ∧
    (incompleteDevice st → ∀ nks,
      find_working_credentials p { st with network_keys := nks } enc_db =
        (.missingDeviceInfo, { st with network_keys := nks })) ∧
    (∀ di, st.device_info = some di → di.uuid ≠ [] → di.model ≠ [] →
      di.serial ≠ [] →
      ((∀ nk ∈ st.network_keys, candidateFails p di enc_db nk) →
        find_working_credentials p st enc_db = (.credentialsNotFound, st)) ∧
      (∀ pre nk post c, st.network_keys = pre ++ nk :: post →
        (∀ v ∈ pre, candidateFails p di enc_db v) →
        candidateSucceeds p di enc_db nk c →
        find_working_credentials p st enc_db =
          (.found c, { st with cached := some c }))) := by
  refine ⟨fwc_missing_iff p st enc_db hc, ?_, ?_⟩
  · intro hinc nks
    exact fwc_missing p { st with network_keys := nks } enc_db hc hinc
  · intro di hdi hu hm hs
    exact ⟨fun hfail => fwc_notfound p st enc_db di hc hdi hu hm hs hfail,
      fun pre nk post c hkeys hpre hsucc =>
        fwc_success p st enc_db di nk c pre post hc hdi hu hm hs hkeys hpre hsucc⟩

theorem C7_witness :
    find_working_credentials dummyPrims fixState (fixCt 1) =
      (.found fixCreds1, { fixState with cached := some fixCreds1 }) ∧
    find_working_credentials dummyPrims { fixState with network_keys := [] }
      (fixCt 1) =
      (.credentialsNotFound, { fixState with network_keys := [] }) :=
  ⟨((C7_find_working_credentials dummyPrims fixState (fixCt 1) rfl).2.2 fixDevice
      rfl (by decide) (by decide) (by decide)).2 [] fixNetKey [] fixCreds1 rfl
      (by simp)
      ⟨fixKeyBytes, fixPragma, decRepr 1, by decide, by decide, by decide,
        by decide, by decide⟩,
   ((C7_find_working_credentials dummyPrims { fixState with network_keys := [] }
      (fixCt 1) rfl).2.2 fixDevice rfl (by decide) (by decide) (by decide)).1
      (by simp)⟩

/-- C8: whenever decryption succeeds, the message-extraction operation
creates its temp file exactly once and removes it exactly once, on both the
successful path and the relational-store failure path, so the file is
absent from the filesystem afterwards; when decryption yields no plaintext,
no temp file is ever created. -/
theorem C8_temp_file (p : Prims) (st : DecState) (enc_db : Bytes) (tmp : Nat)
    (db : DbModel) (fs : List Nat) (htmp : tmp ∉ fs) :
    (∀ dec st2, decrypt_file p st enc_db = (.ok dec, st2) →
      (get_messages_from_edb p st enc_db tmp db).2.2.count (.created tmp) = 1 ∧
      (get_messages_from_edb p st enc_db tmp db).2.2.count (.removed tmp) = 1 ∧
      tmp ∉ applyEvents fs (get_messages_from_edb p st enc_db tmp db).2.2) ∧
    (∀ st2, decrypt_file p st enc_db = (.noCredentials, st2) →
      (get_messages_from_edb p st enc_db tmp db).2.2 = []) ∧
    (∀ st2, decrypt_file p st enc_db = (.decryptionFailed, st2) →
      (get_messages_from_edb p st enc_db tmp db).2.2 = []) ∧
    (∀ e st2, decrypt_file p st enc_db = (.raised e, st2) →
      (get_messages_from_edb p st enc_db tmp db).2.2 = []) := by
  refine ⟨?_, ?_, ?_, ?_⟩
  · intro dec st2 hdf
    by_cases hdb : db.masterOk = true
    · simp only [get_messages_from_edb, decrypt_to_temp_file, hdf, hdb, if_true]
      refine ⟨by simp [List.count_cons], by simp [List.count_cons], ?_⟩
      simp [applyEvents, List.mem_filter]
    · simp only [get_messages_from_edb, decrypt_to_temp_file, hdf]
      rw [if_neg hdb]
      refine ⟨by simp [List.count_cons], by simp [List.count_cons], ?_⟩
      simp [applyEvents, List.mem_filter]
  · intro st2 hdf
    simp only [get_messages_from_edb, decrypt_to_temp_file, hdf]
  · intro st2 hdf
    simp only [get_messages_from_edb, decrypt_to_temp_file, hdf]
  · intro e st2 hdf
    simp only [get_messages_from_edb, decrypt_to_temp_file, hdf]

theorem C8_witness :
    (get_messages_from_edb dummyPrims fixState (fixCt 1) 7
      { masterOk := true, tables := [] }).2.2.count (.created 7) = 1 ∧
    (get_messages_from_edb dummyPrims fixState (fixCt 1) 7
      { masterOk := true, tables := [] }).2.2.count (.removed 7) = 1 ∧
    7 ∉ applyEvents [] (get_messages_from_edb dummyPrims fixState (fixCt 1) 7
      { masterOk := true, tables := [] }).2.2 :=
  (C8_temp_file dummyPrims fixState (fixCt 1) 7 { masterOk := true, tables := [] }
    [] (by simp)).1 sqliteMagic { fixState with cached := some fixCreds1 }
    (by decide)

/-- Fixture: the table name "chatLogs_1". -/
def chatLogsName : Bytes := [99, 104, 97, 116, 76, 111, 103, 115, 95, 49]

/-- Fixture: the table name "weirdTable". -/
def weirdName : Bytes := [119, 101, 105, 114, 100, 84, 97, 98, 108, 101]

/-- Fixture: five valid rows, most recent first. -/
def fiveRows : List Row :=
  [⟨5, []⟩, ⟨4, []⟩, ⟨3, []⟩, ⟨2, []⟩, ⟨1, []⟩]

/-- Fixture: the "chatLogs_1" table with 5 valid rows. -/
def exampleTable : Table :=
  { name := chatLogsName, schemaOk := true, rows := fiveRows }

/-- Fixture: the extraction scenario container: "chatLogs_1" with 5 valid
rows and "weirdTable" with a broken schema. -/
def exampleDb : DbModel :=
  { masterOk := true,
    tables := [exampleTable,
               { name := weirdName, schemaOk := false, rows := [] }] }

/-- C9: extraction reads rows only from tables whose name contains,
case-insensitively, "log" or "message"; each successful per-table query
yields at most 1000 rows, most recent first by the send timestamp; a
per-table failure is skipped and the remaining tables still contribute;
with a readable container nothing escapes, and the example container
{"chatLogs_1": 5 rows, "weirdTable": broken} yields exactly the 5 rows. -/
theorem C9_extract_messages :
    (∀ ts : List Table, extractRows ts =
      extractRows (ts.filter (fun t => tableMatches t.name))) ∧
    (∀ t rs, queryRecent t = .ok rs →
      rs.length ≤ 1000 ∧ rs.Pairwise (fun a b => b.sendAt ≤ a.sendAt)) ∧
    (∀ (a b : List Table) (t : Table), queryRecent t = .error () →
      extractRows (a ++ t :: b) = extractRows a ++ extractRows b) ∧
    (∀ (p : Prims) (st : DecState) (enc_db : Bytes) (tmp : Nat) (db : DbModel),
      db.masterOk = true →
      ∀ tpath st2 evs,
        decrypt_to_temp_file p st enc_db tmp = (.path tpath, st2, evs) →
        (get_messages_from_edb p st enc_db tmp db).1 =
          .msgs (extractRows db.tables)) ∧
    (get_messages_from_edb dummyPrims fixState (fixCt 1) 7 exampleDb =
      (.msgs fiveRows, { fixState with cached := some fixCreds1 },
       [.created 7, .removed 7])) := by
  refine ⟨extractRows_filter, queryRecent_spec, ?_, ?_, ?_⟩
  · intro a b t hq
    rw [extractRows_append]
    have hskip : extractRows (t :: b) = extractRows b := by
      by_cases hmatch : tableMatches t.name = true
      · simp only [extractRows]
        rw [if_pos hmatch]
        simp only [hq]
      · simp only [extractRows]
        rw [if_neg hmatch]
    rw [hskip]
  · intro p st enc tmp db hdb tpath st2 evs hdtf
    simp only [get_messages_from_edb, hdtf, hdb, if_true]
  · decide

theorem C9_witness :
    (get_messages_from_edb dummyPrims fixState (fixCt 1) 7 exampleDb).1 =
      .msgs (extractRows exampleDb.tables) ∧
    ∃ rs, queryRecent exampleTable = .ok rs ∧ rs.length ≤ 1000 :=
  ⟨C9_extract_messages.2.2.2.1 dummyPrims fixState (fixCt 1) 7 exampleDb rfl 7
    { fixState with cached := some fixCreds1 } [.created 7] (by decide),
   ⟨(sortDesc fiveRows).take 1000, by decide,
    (C9_extract_messages.2.1 exampleTable ((sortDesc fiveRows).take 1000)
      (by decide)).1⟩⟩

/-- C1 (amended): on every ciphertext whose first 4096-byte window has a
length that is a multiple of the 16-byte block size, `find_user_id` tries
identifiers 1..maxAttempts in order — each deriving (key, iv) from the
pragma and decrypting only the first window — and returns the decimal
string of the smallest identifier whose decrypted window passes the header
check, or `None` when no identifier in range validates; in particular, on a
ciphertext built by window-wise encrypting a magic-header-prefixed
plaintext under the credentials of identifier N (with no collision below
N), it returns exactly N when maxAttempts ≥ N and `None` when
maxAttempts < N.  On a misaligned first window the source instead raises
`ValueError` (the counterexample). -/
theorem C1_find_user_id (p : Prims) (hw : PrimsWf p) :
    (∀ pragma enc_db max_attempts, (enc_db.take 4096).length % 16 = 0 →
      ((find_user_id p pragma enc_db max_attempts = .ok none ↔
        ∀ u, 1 ≤ u → u ≤ max_attempts → validates p pragma enc_db u = false) ∧
      (∀ n, 1 ≤ n → n ≤ max_attempts → validates p pragma enc_db n = true →
        (∀ m, 1 ≤ m → m < n → validates p pragma enc_db m = false) →
        find_user_id p pragma enc_db max_attempts = .ok (some (decRepr n))))) ∧
    (∀ pragma N pt ct max_attempts, 1 ≤ N →
      pt.take 16 = sqliteMagic → pt.length % 16 = 0 →
      encrypt_database p (generate_key_and_iv p pragma (decRepr N)).1
        (generate_key_and_iv p pragma (decRepr N)).2 pt = .ok ct →
      (∀ m, 1 ≤ m → m < N → validates p pragma ct m = false) →
      ((N ≤ max_attempts →
        find_user_id p pragma ct max_attempts = .ok (some (decRepr N))) ∧
       (max_attempts < N →
        find_user_id p pragma ct max_attempts = .ok none))) := by
  constructor
  · intro pragma enc max_attempts halign
    exact ⟨find_user_id_none_iff p hw pragma enc max_attempts halign,
      fun n h1 h2 hval hmin =>
        find_user_id_least p hw pragma enc max_attempts n halign h1 h2 hval hmin⟩
  · intro pragma N pt ct max_attempts hN hmagic hptlen hct hnocol
    have hk : aesKeyOk (generate_key_and_iv p pragma (decRepr N)).1 = true := by
      simp [generate_key_and_iv, aesKeyOk, hw.md5_len]
    have hiv : (generate_key_and_iv p pragma (decRepr N)).2.length = 16 := by
      simp [generate_key_and_iv, hw.md5_len]
    obtain ⟨ct', hct', hctlen, _, _⟩ :=
      encrypt_database_roundtrip p hw _ _ hk hiv pt hptlen
    rw [hct'] at hct
    injection hct with hcteq
    subst hcteq
    have halign : (ct'.take 4096).length % 16 = 0 :=
      take_window_aligned ct' (by omega)
    have hval : validates p pragma ct' N = true :=
      validates_synthetic p hw pragma N pt ct' hmagic hptlen hct'
    constructor
    · intro hle
      exact find_user_id_least p hw pragma ct' max_attempts N halign hN hle
        hval hnocol
    · intro hlt
      exact (find_user_id_none_iff p hw pragma ct' max_attempts halign).mpr
        (fun u h1 h2 => hnocol u h1 (by omega))

theorem C1_counterexample :
    (∀ u, 1 ≤ u → u ≤ 1 → validates dummyPrims [] [0] u = false) ∧
    find_user_id dummyPrims [] [0] 1 = .error .blockMismatch ∧
    find_user_id dummyPrims [] [0] 1 ≠ .ok none :=
  ⟨by decide, by decide, by decide⟩

theorem C1_witness :
    find_user_id dummyPrims fixPragma (fixCt 3) 50000 =
      .ok (some (decRepr 3)) ∧
    find_user_id dummyPrims fixPragma (fixCt 3) 2 = .ok none :=
  ⟨((C1_find_user_id dummyPrims dummyPrims_wf).2 fixPragma 3 sqliteMagic
      (fixCt 3) 50000 (by decide) (by decide) (by decide) (by decide)
      (by decide)).1 (by decide),
   ((C1_find_user_id dummyPrims dummyPrims_wf).2 fixPragma 3 sqliteMagic
      (fixCt 3) 2 (by decide) (by decide) (by decide) (by decide)
      (by decide)).2 (by decide)⟩

/-- C4: for a decryptor whose device secret is {U, M, S}, whose candidate
list contains K (preceded only by failing candidates), and a file built by
window-wise encrypting a magic-header-prefixed plaintext under the
credentials derived from (pragma(U,M,S,K), userId = 42), `decrypt_file`
returns exactly the original plaintext and the credential search reports
and caches userId 42; and whenever the credential search succeeds but
header validation of the full decryption fails, `decrypt_file` fails with
the decryption-failed outcome instead of returning bytes. -/
theorem C4_decrypt_file (p : Prims) (hw : PrimsWf p)
    (st : DecState) (di : DeviceInfo) (nk kb pr : Bytes)
    (pre post : List Bytes) (pt ct : Bytes)
    (hc : st.cached = none) (hdi : st.device_info = some di)
    (hu : di.uuid ≠ []) (hm : di.model ≠ []) (hs : di.serial ≠ [])
    (hkeys : st.network_keys = pre ++ nk :: post)
    (hkb : hexDecode nk = some kb) (hkb16 : kb.length = 16)
    (hpr : generate_pragma p di.uuid di.model di.serial kb = .ok pr)
    (hmagic : pt.take 16 = sqliteMagic) (hptlen : pt.length % 16 = 0)
    (hct : encrypt_database p (generate_key_and_iv p pr (decRepr 42)).1
      (generate_key_and_iv p pr (decRepr 42)).2 pt = .ok ct)
    (hpre : ∀ v ∈ pre, candidateFails p di ct v)
    (hnocol : ∀ m, 1 ≤ m → m < 42 → validates p pr ct m = false) :
    (∃ c, find_working_credentials p st ct =
        (.found c, { st with cached := some c }) ∧
      c.user_id = decRepr 42 ∧ c.pragma = pr ∧ c.network_key = nk ∧
      decrypt_file p st ct = (.ok pt, { st with cached := some c })) ∧
    (∀ (st0 : DecState) (enc_db : Bytes) (c0 : Creds) (st0' : DecState)
        (dec : Bytes),
      find_working_credentials p st0 enc_db = (.found c0, st0') →
      decrypt_database p (generate_key_and_iv p c0.pragma c0.user_id).1
        (generate_key_and_iv p c0.pragma c0.user_id).2 enc_db = .ok dec →
      verify_sqlite_header dec = false →
      decrypt_file p st0 enc_db = (.decryptionFailed, st0')) := by
  have hk : aesKeyOk (generate_key_and_iv p pr (decRepr 42)).1 = true := by
    simp [generate_key_and_iv, aesKeyOk, hw.md5_len]
  have hiv : (generate_key_and_iv p pr (decRepr 42)).2.length = 16 := by
    simp [generate_key_and_iv, hw.md5_len]
  obtain ⟨ct', hct', hctlen, hctdec, _⟩ :=
    encrypt_database_roundtrip p hw _ _ hk hiv pt hptlen
  rw [hct'] at hct
  injection hct with hcteq
  subst hcteq
  have halign : (ct'.take 4096).length % 16 = 0 :=
    take_window_aligned ct' (by omega)
  have hval : validates p pr ct' 42 = true :=
    validates_synthetic p hw pr 42 pt ct' hmagic hptlen hct'
  have hfind : find_user_id p pr ct' 50000 = .ok (some (decRepr 42)) :=
    find_user_id_least p hw pr ct' 50000 42 halign (by omega) (by omega)
      hval hnocol
  constructor
  · refine ⟨mkCreds di nk pr (decRepr 42), ?_, rfl, rfl, rfl, ?_⟩
    · exact fwc_success p st ct' di nk _ pre post hc hdi hu hm hs hkeys hpre
        ⟨kb, pr, decRepr 42, hkb, hkb16, hpr, hfind, rfl⟩
    · have hfwc := fwc_success p st ct' di nk (mkCreds di nk pr (decRepr 42))
        pre post hc hdi hu hm hs hkeys hpre
        ⟨kb, pr, decRepr 42, hkb, hkb16, hpr, hfind, rfl⟩
      have hdd : decrypt_database p
          (generate_key_and_iv p (mkCreds di nk pr (decRepr 42)).pragma
            (mkCreds di nk pr (decRepr 42)).user_id).1
          (generate_key_and_iv p (mkCreds di nk pr (decRepr 42)).pragma
            (mkCreds di nk pr (decRepr 42)).user_id).2 ct' = .ok pt := hctdec
      have hver : verify_sqlite_header pt = true := by
        rw [verify_sqlite_header_iff]
        exact hmagic
      unfold decrypt_file
      simp only [hfwc, hdd, hver, if_true]
  · intro st0 enc_db c0 st0' dec hfwc0 hdec hver
    unfold decrypt_file
    simp only [hfwc0, hdec]
    rw [if_neg (by simp [hver])]

theorem C4_witness :
    ∃ c, find_working_credentials dummyPrims fixState (fixCt 42) =
        (.found c, { fixState with cached := some c }) ∧
      c.user_id = decRepr 42 ∧ c.pragma = fixPragma ∧
      c.network_key = fixNetKey ∧
      decrypt_file dummyPrims fixState (fixCt 42) =
        (.ok sqliteMagic, { fixState with cached := some c }) :=
  (C4_decrypt_file dummyPrims dummyPrims_wf fixState fixDevice fixNetKey
    fixKeyBytes fixPragma [] [] sqliteMagic (fixCt 42) (by decide) (by decide)
    (by decide) (by decide) (by decide) (by decide) (by decide) (by decide)
    (by decide) (by decide) (by decide) (by decide) (by simp) (by decide)).1

end KakaoMCP


